import Mathlib

/-!
# file-downloader: the task manager

A shallow embedding of `internal/task` (task.go, adapter.go, manager.go) and, from
`internal/downloader`, of `DownloadFile` as the adapter calls it and of `sanitizeFileName`.

Conventions of the embedding.

* A Go `error` is an `Option String`: `none` is `nil`, `some m` an error whose
  `Error()` is `m`.
* A Go `string` is a `String`, a sequence of Unicode characters.
* A `*DownloadTask` is an index into `World.heap`; the registry and the work queue
  hold such indices, as the Go map and channel hold pointers.
* The two injected capabilities (`Storage`, `FileDownloader`) are arbitrary
  functions of the history of the calls made to them so far; the history is kept
  in the world (`saved`, `downloads`), so that which calls were made is visible.
* `time.Now()` reads a tick counter, `uuid.New().String()` is an argument of
  `CreateTask`, `url.ParseRequestURI` is a parameter (`ParseRequestURI u = true`
  when the library returns a nil error).
* A block of code that runs under `tm.mu.Lock()` is one function on the world. What
  other goroutines do meanwhile without the lock is a parameter of the function:
  `shutdownBefore` for the calls of `Shutdown` during `processTask`, `receives` for the
  workers that receive from the channel during `RestoreTasks`.
* The goroutines together are the step function `step` over the actions `Label`; a run
  is a list of actions.
-/

namespace FileDl

/-! ## task.go -/

abbrev TaskStatus := String

def StatusPending : TaskStatus := "pending"
def StatusProcessing : TaskStatus := "processing"
def StatusCompleted : TaskStatus := "completed"
def StatusFailed : TaskStatus := "failed"

structure FileResult where
  URL : String
  FileName : String
  Error : String
  Size : Int
deriving DecidableEq, Repr

/-- The Go zero value `FileResult{}`. -/
def FileResult.zero : FileResult := { URL := "", FileName := "", Error := "", Size := 0 }

instance : Inhabited FileResult := ⟨FileResult.zero⟩

structure DownloadTask where
  ID : String
  URLs : List String
  Status : TaskStatus
  CreatedAt : Nat
  UpdatedAt : Nat
  Results : List FileResult
deriving DecidableEq, Repr

instance : Inhabited DownloadTask :=
  ⟨{ ID := "", URLs := [], Status := "", CreatedAt := 0, UpdatedAt := 0, Results := [] }⟩

/-- The validation part of `NewDownloadTask`: the error it returns, if any. -/
def validateURLs (ParseRequestURI : String → Bool) (urls : List String) : Option String :=
  if urls.length = 0 then some "urls list cannot be empty"
  else match urls.find? (fun u => !ParseRequestURI u) with
    | some u => some ("invalid URL: " ++ u)
    | none => none

/-- `NewDownloadTask(urls)`; `id` is the value of `uuid.New().String()`, `createdAt` and
`updatedAt` the two readings of `time.Now()`. -/
def NewDownloadTask (ParseRequestURI : String → Bool) (urls : List String) (id : String)
    (createdAt updatedAt : Nat) : Except String DownloadTask :=
  match validateURLs ParseRequestURI urls with
  | some err => .error err
  | none => .ok { ID := id, URLs := urls, Status := StatusPending, CreatedAt := createdAt,
                  UpdatedAt := updatedAt, Results := [] }

def DownloadTask.UpdateStatus (t : DownloadTask) (status : TaskStatus) (now : Nat) :
    DownloadTask :=
  { t with Status := status, UpdatedAt := now }

def DownloadTask.AddResult (t : DownloadTask) (result : FileResult) : DownloadTask :=
  { t with Results := t.Results ++ [result] }

def DownloadTask.IsFinished (t : DownloadTask) : Bool :=
  t.Status == StatusCompleted || t.Status == StatusFailed

/-! ## downloader.go: what the adapter calls -/

/-- The scan of `strings.ReplaceAll(s, old, new)` for a non-empty `old`, left to right over
the characters still to read: at a match `new` is written and the match is dropped, `skip`
being the number of its characters that remain to drop; elsewhere the character is kept. -/
def ReplaceAll_scan (old new : List Char) : Nat → List Char → List Char
  | _, [] => []
  | skip + 1, _ :: cs => ReplaceAll_scan old new skip cs
  | 0, c :: cs =>
    if old.isPrefixOf (c :: cs) then new ++ ReplaceAll_scan old new (old.length - 1) cs
    else c :: ReplaceAll_scan old new 0 cs

/-- `strings.ReplaceAll(s, old, new)` of the Go library: every non-overlapping match of
`old`, from the left, is replaced by `new`; an empty `old` matches before each character
and at the end; nothing is done when `old == new`. -/
def ReplaceAll (s old new : String) : String :=
  if old = new then s
  else if old.data = [] then ⟨new.data ++ s.data.flatMap (fun c => c :: new.data)⟩
  else ⟨ReplaceAll_scan old.data new.data 0 s.data⟩

/-- `sanitizeFileName(name)`. -/
def sanitizeFileName (name : String) : String :=
  let name := ReplaceAll name "/" "_"
  let name := ReplaceAll name "\\" "_"
  let name := ReplaceAll name ":" "_"
  let name := ReplaceAll name "*" "_"
  let name := ReplaceAll name "?" "_"
  let name := ReplaceAll name "\"" "_"
  let name := ReplaceAll name "<" "_"
  let name := ReplaceAll name ">" "_"
  let name := ReplaceAll name "|" "_"
  name

structure DownloadResult where
  URL : String
  FileName : String
  Error : String
  Size : Int
deriving DecidableEq, Repr

/-- What the network and the file system do for one `Downloader.DownloadFile` call: the
branch the function takes, with the data it reads there. In `ok`, `fileName` is the value
of `d.getFileName(url, resp)` and `size` the byte count of `io.Copy`. -/
inductive FetchOutcome where
  | requestFailed (err : String)
  | badStatus (statusCode : Int) (status : String)
  | createFailed (err : String)
  | writeFailed (err : String)
  | ok (fileName : String) (size : Int)
deriving DecidableEq, Repr

/-- `(*Downloader).DownloadFile(url)`, given what the outside world did. -/
def Downloader.DownloadFile (outcome : FetchOutcome) (url : String) :
    DownloadResult × Option String :=
  let result : DownloadResult := { URL := url, FileName := "", Error := "", Size := 0 }
  match outcome with
  | .requestFailed err => (result, some ("HTTP request failed: " ++ err))
  | .badStatus code status => (result, some ("HTTP status " ++ toString code ++ ": " ++ status))
  | .createFailed err => (result, some ("failed to create file: " ++ err))
  | .writeFailed err => (result, some ("failed to write file: " ++ err))
  | .ok fileName size => ({ result with FileName := fileName, Size := size }, none)

/-! ## manager.go: the capabilities -/

/-- The `Storage` interface. Each method sees the snapshots passed to `SaveTask` so far. -/
structure Storage where
  SaveTask : List DownloadTask → DownloadTask → Option String
  GetTask : List DownloadTask → String → Except String DownloadTask
  GetAllTasks : List DownloadTask → Except String (List (String × DownloadTask))

/-- The `FileDownloader` interface. `DownloadFile` sees the URLs it was called with so far. -/
structure FileDownloader where
  DownloadFile : List String → String → FileResult × Option String

/-! ## adapter.go -/

/-- `(*downloaderAdapter).DownloadFile(url)` over the result of the wrapped downloader. -/
def downloaderAdapter.DownloadFile (inner : DownloadResult × Option String) :
    FileResult × Option String :=
  match inner.2 with
  | some err => (FileResult.zero, some err)
  | none => ({ URL := inner.1.URL, FileName := inner.1.FileName, Error := inner.1.Error,
               Size := inner.1.Size }, none)

/-- `NewDownloaderAdapter(dl)`: `fetch` says what the outside world does at each call of the
wrapped downloader, given the URLs requested before. -/
def NewDownloaderAdapter (fetch : List String → String → FetchOutcome) : FileDownloader :=
  { DownloadFile := fun history url =>
      downloaderAdapter.DownloadFile (Downloader.DownloadFile (fetch history url) url) }

/-! ## manager.go: state -/

/-- The local state of one `worker` goroutine. -/
inductive Worker where
  /-- blocked in the `select` of `worker` -/
  | idle
  /-- received `p` from the queue; `processTask(p)` has not taken the lock yet -/
  | dequeued (p : Nat)
  /-- in the `range` loop of `processTask(p)`, at the `select`, `rest` still to visit -/
  | ranging (p : Nat) (rest : List String) (allSuccess : Bool)
  /-- `DownloadFile` returned, `result` patched; about to lock and `AddResult` -/
  | downloaded (p : Nat) (rest : List String) (allSuccess : Bool) (result : FileResult)
  /-- left the loop of `worker` on `ctx.Done()` -/
  | stopped
deriving DecidableEq, Repr

/-- The fields of `TaskManager` that hold data: the registry (a map: at most one entry per
key), the buffered channel (head is delivered next) and whether `ctx` is cancelled. -/
structure TaskManager where
  tasks : List (String × Nat)
  workQueue : List Nat
  ctxDone : Bool
deriving DecidableEq, Repr

structure World where
  heap : List DownloadTask
  tm : TaskManager
  workers : List Worker
  clock : Nat
  saved : List DownloadTask
  downloads : List String
deriving DecidableEq, Repr

/-- The capacity of `make(chan *DownloadTask, 100)`. -/
def workQueueCap : Nat := 100

/-- Everything injected into, or called by, the task manager. -/
structure Env where
  ParseRequestURI : String → Bool
  storage : Storage
  downloader : FileDownloader

def World.deref (w : World) (p : Nat) : DownloadTask := w.heap.getD p default

def World.assign (w : World) (p : Nat) (t : DownloadTask) : World :=
  { w with heap := w.heap.set p t }

/-- `m[k] = v` on a Go map. -/
def mapSet (m : List (String × Nat)) (k : String) (v : Nat) : List (String × Nat) :=
  (k, v) :: m.filter (fun e => e.1 != k)

/-- `v, ok := m[k]`. -/
def mapGet (m : List (String × Nat)) (k : String) : Option Nat :=
  (m.find? (fun e => e.1 == k)).map Prod.snd

/-- `select { case ch <- p: ... default: ... }`: the queue after the send, or `none` when
the `default` branch runs. -/
def trySend (q : List Nat) (p : Nat) : Option (List Nat) :=
  if q.length < workQueueCap then some (q ++ [p]) else none

/-- `NewTaskManager(storage, downloader, workers)`. -/
def NewTaskManager (workers : Nat) : World :=
  { heap := [], tm := { tasks := [], workQueue := [], ctxDone := false },
    workers := List.replicate workers Worker.idle, clock := 0, saved := [], downloads := [] }

/-- `tm.storage.SaveTask(task)`: the error returned, and the world with the call recorded. -/
def World.SaveTask (S : Storage) (w : World) (t : DownloadTask) : Option String × World :=
  (S.SaveTask w.saved t, { w with saved := w.saved ++ [t] })

/-- `tm.saveTask(task)`: an error is logged and dropped. -/
def saveTask (S : Storage) (w : World) (p : Nat) : World :=
  (w.SaveTask S (w.deref p)).2

/-- `task.UpdateStatus(status)` through the pointer. -/
def World.UpdateStatus (w : World) (p : Nat) (status : TaskStatus) : World :=
  { w.assign p ((w.deref p).UpdateStatus status w.clock) with clock := w.clock + 1 }

/-- `task.AddResult(result)` through the pointer. -/
def World.AddResult (w : World) (p : Nat) (result : FileResult) : World :=
  w.assign p ((w.deref p).AddResult result)

/-- `tm.cancel()`, the effect of `Shutdown` on the shared state. -/
def Shutdown (w : World) : World :=
  { w with tm := { w.tm with ctxDone := true } }

/-! ## manager.go: processTask -/

/-- Lines 73-76: lock, `UpdateStatus(StatusProcessing)`, `saveTask`, unlock. -/
def processTask_begin (E : Env) (w : World) (p : Nat) : World :=
  saveTask E.storage (w.UpdateStatus p StatusProcessing) p

/-- Lines 86-93: call the download capability and patch the result on error. Returns the
result to append and whether the call succeeded. -/
def processTask_download (E : Env) (w : World) (url : String) : (FileResult × Bool) × World :=
  let r := E.downloader.DownloadFile w.downloads url
  let w1 := { w with downloads := w.downloads ++ [url] }
  match r.2 with
  | some err => (({ r.1 with Error := err }, false), w1)
  | none => ((r.1, true), w1)

/-- Lines 95-98: lock, `AddResult`, `saveTask`, unlock. -/
def processTask_append (E : Env) (w : World) (p : Nat) (result : FileResult) : World :=
  saveTask E.storage (w.AddResult p result) p

/-- Lines 86-98, the `default` branch of the `select`: download, then append. -/
def processTask_iter (E : Env) (p : Nat) (w : World) (url : String) : World :=
  let d := processTask_download E w url
  processTask_append E d.2 p d.1.1

/-- Lines 102-110: lock, set the terminal status, `saveTask`, unlock. -/
def processTask_finalize (E : Env) (w : World) (p : Nat) (allSuccess : Bool) : World :=
  saveTask E.storage
    (w.UpdateStatus p (if allSuccess then StatusCompleted else StatusFailed)) p

/-- The `range` loop of `processTask`. `shutdownBefore i = true` says that another
goroutine calls `Shutdown` just before the `select` that precedes the URL of index `i`.
Returns `none` when the loop returned from `processTask` on `ctx.Done()`, and the value of
`allSuccess` when it ran to its end. -/
def processTask_loop (E : Env) (shutdownBefore : Nat → Bool) (p : Nat) :
    List String → Nat → Bool → World → World × Option Bool
  | [], _, allSuccess, w => (w, some allSuccess)
  | url :: rest, i, allSuccess, w =>
    let w0 := if shutdownBefore i then Shutdown w else w
    if w0.tm.ctxDone then (w0, none)
    else
      processTask_loop E shutdownBefore p rest (i + 1)
        (allSuccess && (processTask_download E w0 url).1.2) (processTask_iter E p w0 url)

/-- `tm.processTask(task)` run by one worker, the other goroutines only calling `Shutdown`. -/
def processTask (E : Env) (shutdownBefore : Nat → Bool) (w : World) (p : Nat) : World :=
  let w1 := processTask_begin E w p
  match processTask_loop E shutdownBefore p (w1.deref p).URLs 0 true w1 with
  | (w2, none) => w2
  | (w2, some allSuccess) => processTask_finalize E w2 p allSuccess

/-! ## manager.go: CreateTask, GetTask, RestoreTasks -/

/-- Line 122 of `CreateTask`: the object `NewDownloadTask` returned is registered. The two
readings of the clock are those of `NewDownloadTask`. -/
def CreateTask_register (w : World) (task : DownloadTask) : World :=
  { w with heap := w.heap ++ [task], clock := w.clock + 2,
           tm := { w.tm with tasks := mapSet w.tm.tasks task.ID w.heap.length } }

/-- `tm.CreateTask(urls)`; `id` is what `uuid.New().String()` returns. The result is the
pointer returned, or the error. -/
def CreateTask (E : Env) (w : World) (urls : List String) (id : String) :
    Except String Nat × World :=
  match NewDownloadTask E.ParseRequestURI urls id w.clock (w.clock + 1) with
  | .error err => (.error err, w)
  | .ok task =>
    let s := (CreateTask_register w task).SaveTask E.storage task
    match s.1 with
    | some err => (.error err, s.2)
    | none =>
      match trySend s.2.tm.workQueue w.heap.length with
      | some q => (.ok w.heap.length, { s.2 with tm := { s.2.tm with workQueue := q } })
      | none => (.error "work queue is full", s.2)

/-- `tm.GetTask(taskID)`. -/
def GetTask (w : World) (taskID : String) : Except String Nat :=
  match mapGet w.tm.tasks taskID with
  | some p => .ok p
  | none => .error "task not found"

/-- The task a worker holds between receiving it and returning from `processTask`. -/
def Worker.task : Worker → Option Nat
  | .dequeued p => some p
  | .ranging p _ _ => some p
  | .downloaded p _ _ _ => some p
  | _ => none

def World.setWorker (w : World) (i : Nat) (k : Worker) : World :=
  { w with workers := w.workers.set i k }

/-- The `select` of `worker`, first case: worker `i` receives the head of the queue. -/
def workerReceive (w : World) (i : Nat) : Option World :=
  match w.workers[i]?, w.tm.workQueue with
  | some .idle, p :: q =>
    some ({ w with tm := { w.tm with workQueue := q } }.setWorker i (.dequeued p))
  | _, _ => none

/-- The body of the `range tasks` loop of `RestoreTasks` for one entry `(id, task)`; the
loaded task becomes a new object. -/
def RestoreTasks_entry (w : World) (e : String × DownloadTask) : World :=
  let p := w.heap.length
  let w1 : World := { w with heap := w.heap ++ [e.2],
                              tm := { w.tm with tasks := mapSet w.tm.tasks e.1 p } }
  if !e.2.IsFinished then
    let w2 := w1.UpdateStatus p StatusPending
    match trySend w2.tm.workQueue p with
    | some q => { w2 with tm := { w2.tm with workQueue := q } }
    | none => w2
  else w1

/-- The workers `is`, in this order, receive from the queue; a worker that cannot receive
is skipped. -/
def receiveAll (w : World) (is : List Nat) : World :=
  is.foldl (fun w' i => (workerReceive w' i).getD w') w

/-- The `range tasks` loop of `RestoreTasks`. The lock the loop holds does not guard the
channel: `receives` lists, for each entry in turn, the workers that receive from the queue
just before the entry is visited (none once the list is exhausted). -/
def RestoreTasks_loop : List (List Nat) → List (String × DownloadTask) → World → World
  | _, [], w => w
  | rs, e :: es, w =>
    RestoreTasks_loop rs.tail es (RestoreTasks_entry (receiveAll w (rs.headD [])) e)

/-- `tm.RestoreTasks()`: the loaded map is visited in the order the capability lists it. -/
def RestoreTasks (E : Env) (receives : List (List Nat)) (w : World) : Option String × World :=
  match E.storage.GetAllTasks w.saved with
  | .error err => (some err, w)
  | .ok tasks => (none, RestoreTasks_loop receives tasks w)

/-! ## manager.go: the goroutines, one atomic action at a time -/

/-- The next action of worker `i` inside `processTask`; `none` when it is not there. -/
def workerStep (E : Env) (w : World) (i : Nat) : Option World :=
  match w.workers[i]? with
  | some (.dequeued p) =>
    let w1 := processTask_begin E w p
    some (w1.setWorker i (.ranging p (w1.deref p).URLs true))
  | some (.ranging p [] allSuccess) =>
    some ((processTask_finalize E w p allSuccess).setWorker i .idle)
  | some (.ranging p (url :: rest) allSuccess) =>
    if w.tm.ctxDone then some (w.setWorker i .idle)
    else
      let d := processTask_download E w url
      some (d.2.setWorker i (.downloaded p rest (allSuccess && d.1.2) d.1.1))
  | some (.downloaded p rest allSuccess result) =>
    some ((processTask_append E w p result).setWorker i (.ranging p rest allSuccess))
  | _ => none

/-- The `select` of `worker`, second case: worker `i` sees `ctx.Done()` and returns. -/
def workerStop (w : World) (i : Nat) : Option World :=
  match w.workers[i]? with
  | some .idle => if w.tm.ctxDone then some (w.setWorker i .stopped) else none
  | _ => none

/-- The atomic actions of a run of the task manager. -/
inductive Label where
  | createTask (urls : List String) (id : String)
  | restoreTasks (receives : List (List Nat))
  | shutdown
  | receive (i : Nat)
  | stop (i : Nat)
  | advance (i : Nat)
deriving DecidableEq, Repr

/-- One action; `none` when the action cannot happen in `w`. -/
def step (E : Env) (l : Label) (w : World) : Option World :=
  match l with
  | .createTask urls id => some (CreateTask E w urls id).2
  | .restoreTasks receives => some (RestoreTasks E receives w).2
  | .shutdown => some (Shutdown w)
  | .receive i => workerReceive w i
  | .stop i => workerStop w i
  | .advance i => workerStep E w i

/-- A sequence of actions. -/
def run (E : Env) : List Label → World → Option World
  | [], w => some w
  | l :: ls, w => (step E l w).bind (run E ls)

/-! ## Notions used in the statements -/

/-- What `processTask` gets out of the download capability for the URLs `urls` in turn,
when the capability was called with `hist` before: the result as patched on error, and
whether the call returned a nil error. -/
def downloadOutcomes (E : Env) : List String → List String → List (FileResult × Bool)
  | _, [] => []
  | hist, url :: rest =>
    (processTask_download E { (NewTaskManager 0) with downloads := hist } url).1 ::
      downloadOutcomes E (hist ++ [url]) rest

/-- The task after each of the results `rs` is appended in turn. -/
def snapshots (t : DownloadTask) : List FileResult → List DownloadTask
  | [] => []
  | r :: rs => t.AddResult r :: snapshots (t.AddResult r) rs

/-- A download capability that tells failure through its error alone: a nil error comes
with an empty `Error` field, and no error has an empty message. -/
def FileDownloader.ReportsErrors (D : FileDownloader) : Prop :=
  ∀ hist url, ((D.DownloadFile hist url).2 = none → (D.DownloadFile hist url).1.Error = "")
    ∧ (D.DownloadFile hist url).2 ≠ some ""

/-- The task `NewDownloadTask` builds when the URLs pass validation. -/
def pendingTask (urls : List String) (id : String) (now : Nat) : DownloadTask :=
  { ID := id, URLs := urls, Status := StatusPending, CreatedAt := now, UpdatedAt := now + 1,
    Results := [] }

/-- The object `RestoreTasks` leaves for a loaded task `t`, `now` being the clock when the
task is visited. -/
def restoredTask (t : DownloadTask) (now : Nat) : DownloadTask :=
  if t.IsFinished then t else t.UpdateStatus StatusPending now

/-- The clock after `RestoreTasks` has visited `loaded`. -/
def restoredClock (now : Nat) : List (String × DownloadTask) → Nat
  | [] => now
  | e :: es => restoredClock (if e.2.IsFinished then now else now + 1) es

/-- The objects `RestoreTasks` allocates for `loaded`, in the order of the visit. -/
def restoredHeap (now : Nat) : List (String × DownloadTask) → List DownloadTask
  | [] => []
  | e :: es => restoredTask e.2 now :: restoredHeap (if e.2.IsFinished then now else now + 1) es

/-- The registry after each entry of `loaded` is registered in turn, the first under the
pointer `base`. -/
def registerAll (base : Nat) (m : List (String × Nat)) :
    List (String × DownloadTask) → List (String × Nat)
  | [] => m
  | e :: es => registerAll (base + 1) (mapSet m e.1 base) es

/-- The pointers of the loaded tasks that are not finished, in the order of the visit, the
first loaded task being at `base`. -/
def unfinishedPointers (base : Nat) : List (String × DownloadTask) → List Nat
  | [] => []
  | e :: es => if e.2.IsFinished then unfinishedPointers (base + 1) es
               else base :: unfinishedPointers (base + 1) es

/-- The invariant of the manager: the queue and the workers hold pointers to allocated,
unfinished tasks, each pointer at most once over the queue and all workers; the registry
holds pointers to allocated tasks. -/
structure Owned (w : World) : Prop where
  queue_nodup : w.tm.workQueue.Nodup
  queue_ok : ∀ p ∈ w.tm.workQueue, p < w.heap.length ∧ (w.deref p).IsFinished = false
  worker_ok : ∀ (i : Nat) (k : Worker) (p : Nat), w.workers[i]? = some k → k.task = some p →
    p < w.heap.length ∧ (w.deref p).IsFinished = false ∧ p ∉ w.tm.workQueue
  worker_distinct : ∀ (i j : Nat) (k k' : Worker) (p : Nat), w.workers[i]? = some k →
    w.workers[j]? = some k' → k.task = some p → k'.task = some p → i = j
  registry_ok : ∀ (id : String) (p : Nat), mapGet w.tm.tasks id = some p → p < w.heap.length

/-- The action is a call of `RestoreTasks`. -/
def Label.isRestore : Label → Bool
  | .restoreTasks _ => true
  | _ => false

/-- The actions that write the registry. -/
def Label.isRegistryOp : Label → Bool
  | .restoreTasks _ => true
  | .createTask _ _ => true
  | _ => false

/-- `RestoreTasks` is invoked at most once, and before any `CreateTask`: after the first
action that writes the registry there is no `RestoreTasks`. -/
def restoreFirst : List Label → Bool
  | [] => true
  | l :: ls => if l.isRegistryOp then ls.all (fun l' => !l'.isRestore) else restoreFirst ls

/-- Every identifier `uuid.New()` hands to `CreateTask` in the run is new: it is not a key
of the registry at that moment. -/
def freshIDs (E : Env) : List Label → World → Bool
  | [], _ => true
  | l :: ls, w =>
    (match l with
      | .createTask _ id => (mapGet w.tm.tasks id).isNone
      | _ => true)
    && (match step E l w with
      | some w' => freshIDs E ls w'
      | none => true)

/-- What a reader of the registry sees of the task `id`: status, number of results, number
of URLs. -/
def observe (w : World) (id : String) : Option (TaskStatus × Nat × Nat) :=
  (mapGet w.tm.tasks id).map
    (fun p => ((w.deref p).Status, (w.deref p).Results.length, (w.deref p).URLs.length))

/-- A new process on the disk the world `w` leaves behind: a new manager, the same
history of saved snapshots. -/
def restart (w : World) (workers : Nat) : World :=
  { (NewTaskManager workers) with saved := w.saved }

/-- The nine characters `sanitizeFileName` replaces. -/
def forbiddenChars : List Char := ['/', '\\', ':', '*', '?', '"', '<', '>', '|']

/-- One call of `strings.ReplaceAll` with one-character strings, seen on one character. -/
def replaceChar (c d x : Char) : Char := if x = c then d else x

/-- What becomes of one character of a name: '_' for a forbidden one, itself otherwise. -/
def sanitizeChar (c : Char) : Char := if c ∈ forbiddenChars then '_' else c

/-! ## Worlds and capabilities of the examples -/

/-- The records the storage directory holds after the snapshots `saved` were written: one
per task ID, the last one written under it. -/
def latestRecords (saved : List DownloadTask) : List (String × DownloadTask) :=
  saved.foldl (fun m t => m.filter (fun e => e.1 != t.ID) ++ [(t.ID, t)]) []

/-- The store of storage.go on a file system where no operation fails. -/
def fileStorage : Storage :=
  { SaveTask := fun _ _ => none
    GetTask := fun saved id =>
      match (latestRecords saved).find? (fun e => e.1 == id) with
      | some e => .ok e.2
      | none => .error "task not found"
    GetAllTasks := fun saved => .ok (latestRecords saved) }

/-- The URLs of the example of the specification. -/
def exampleURLs : List String := ["http://a/x", "http://b/y"]

/-- The task `CreateTask(exampleURLs)` builds on a new manager. -/
def exampleTask : DownloadTask :=
  { ID := "t1", URLs := exampleURLs, Status := StatusPending, CreatedAt := 0, UpdatedAt := 1,
    Results := [] }

/-- The world after `CreateTask(exampleURLs)` on a new manager with one worker, and after
that worker received the task. -/
def exampleWorld : World :=
  { heap := [exampleTask], tm := { tasks := [("t1", 0)], workQueue := [], ctxDone := false },
    workers := [.dequeued 0], clock := 2, saved := [exampleTask], downloads := [] }

/-- The example of the specification, through the adapter: the first request succeeds with
file name "x" and 100 bytes, every other request fails with "timeout". -/
def exampleFetch (history : List String) (_url : String) : FetchOutcome :=
  if history.length = 0 then .ok "x" 100 else .requestFailed "timeout"

/-- The adapter of the example, the store of storage.go, and a validation that asks for
the scheme `http://`. -/
def exampleEnv : Env :=
  { ParseRequestURI := fun u => u.data.take 7 == "http://".data
    storage := fileStorage
    downloader := NewDownloaderAdapter exampleFetch }

/-- A download capability that returns a nil error and tells the failure in the `Error`
field of its result. -/
def fieldErrorDownloader : FileDownloader :=
  { DownloadFile := fun _ url =>
      ({ URL := url, FileName := "", Error := "checksum mismatch", Size := 0 }, none) }

/-- The example with that capability. -/
def fieldErrorEnv : Env := { exampleEnv with downloader := fieldErrorDownloader }

/-- A first process: the task is created, the worker downloads the first URL and records
the result, then `Shutdown` is called and the worker returns from `processTask`. -/
def interruptedRun : List Label :=
  [.createTask exampleURLs "t1", .receive 0, .advance 0, .advance 0, .advance 0, .shutdown,
   .advance 0]

/-- A second process: `RestoreTasks`, then the worker processes the restored task to the
end. -/
def restoredRun : List Label :=
  [.restoreTasks [], .receive 0, .advance 0, .advance 0, .advance 0, .advance 0, .advance 0,
   .advance 0]

/-- A store whose disk takes one hundred records and then is full. -/
def smallDiskStorage : Storage :=
  { fileStorage with
    SaveTask := fun saved _ =>
      if saved.length < 100 then none else some "no space left on device" }

/-- The example on that store. -/
def smallDiskEnv : Env := { exampleEnv with storage := smallDiskStorage }

/-- A manager without workers after one hundred calls of `CreateTask`: the queue is full. -/
def fullQueueWorld : World :=
  (List.range 100).foldl
    (fun w i => (CreateTask smallDiskEnv w ["http://a/x"] ("t" ++ toString i)).2)
    (NewTaskManager 0)

/-- A store on which every save fails. -/
def failingStorage : Storage := { fileStorage with SaveTask := fun _ _ => some "disk failure" }

/-- The example on that store. -/
def failingEnv : Env := { exampleEnv with storage := failingStorage }

/-- A manager with one worker after ninety-nine calls of `CreateTask`, the worker not
having run yet: one slot is free. -/
def nearlyFullWorld : World :=
  (List.range 99).foldl
    (fun w i => (CreateTask exampleEnv w ["http://a/x"] ("t" ++ toString i)).2)
    (NewTaskManager 1)

/-- Three persisted tasks: one Completed, one left Processing with a result, one Pending. -/
def loadedExample : List (String × DownloadTask) :=
  [("a", { ID := "a", URLs := ["http://a/x"], Status := StatusCompleted, CreatedAt := 0,
           UpdatedAt := 3,
           Results := [{ URL := "http://a/x", FileName := "x", Error := "", Size := 100 }] }),
   ("b", { ID := "b", URLs := exampleURLs, Status := StatusProcessing, CreatedAt := 4,
           UpdatedAt := 5,
           Results := [{ URL := "http://a/x", FileName := "x", Error := "", Size := 100 }] }),
   ("c", { ID := "c", URLs := exampleURLs, Status := StatusPending, CreatedAt := 6,
           UpdatedAt := 7, Results := [] })]

/-- The example on a store that holds `loadedExample`. -/
def loadedEnv : Env :=
  { exampleEnv with storage := { fileStorage with GetAllTasks := fun _ => .ok loadedExample } }

/-- A run of the example manager: `RestoreTasks` on an empty store, a task created and
processed to its end by the worker. -/
def firstRun : List Label :=
  [.restoreTasks [], .createTask exampleURLs "t1", .receive 0, .advance 0, .advance 0, .advance 0,
   .advance 0, .advance 0, .advance 0]

/-- The run goes on: a second task is created and the worker starts on it, `Shutdown` is
called, the worker returns and stops. -/
def secondRun : List Label :=
  [.createTask exampleURLs "t2", .receive 0, .advance 0, .advance 0, .shutdown, .advance 0,
   .advance 0, .stop 0]

/-- The world after `firstRun` on a new manager with one worker. -/
def afterFirstRun : World :=
  (run exampleEnv firstRun (NewTaskManager 1)).getD (NewTaskManager 1)

/-- The world after `secondRun` from there. -/
def afterSecondRun : World := (run exampleEnv secondRun afterFirstRun).getD afterFirstRun

/-! ## The heap -/

theorem deref_assign_same (w : World) (p : Nat) (t : DownloadTask) (h : p < w.heap.length) :
    (w.assign p t).deref p = t := by
  simp [World.deref, World.assign, List.getD_eq_getElem?_getD, h]

theorem deref_assign_ne (w : World) (p q : Nat) (t : DownloadTask) (h : p ≠ q) :
    (w.assign p t).deref q = w.deref q := by
  simp [World.deref, World.assign, List.getD_eq_getElem?_getD, List.getElem?_set_ne h]

/-! ## The loop of processTask -/

theorem download_fst (E : Env) (w : World) (url : String) :
    (processTask_download E w url).1
      = (processTask_download E { (NewTaskManager 0) with downloads := w.downloads } url).1 := by
  simp only [processTask_download]
  split <;> rfl

theorem download_snd (E : Env) (w : World) (url : String) :
    (processTask_download E w url).2 = { w with downloads := w.downloads ++ [url] } := by
  simp only [processTask_download]
  split <;> rfl

theorem downloadOutcomes_length (E : Env) (urls : List String) :
    ∀ hist, (downloadOutcomes E hist urls).length = urls.length := by
  induction urls with
  | nil => intro hist; rfl
  | cons u us ih => intro hist; simp [downloadOutcomes, ih]

theorem downloadOutcomes_append (E : Env) (xs ys : List String) :
    ∀ hist, downloadOutcomes E hist (xs ++ ys)
      = downloadOutcomes E hist xs ++ downloadOutcomes E (hist ++ xs) ys := by
  induction xs with
  | nil => intro hist; simp [downloadOutcomes]
  | cons u us ih => intro hist; simp [downloadOutcomes, ih]

theorem iter_eq (E : Env) (p : Nat) (w : World) (url : String) :
    processTask_iter E p w url =
      saveTask E.storage (({ w with downloads := w.downloads ++ [url] } : World).AddResult p
        (processTask_download E w url).1.1) p := by
  simp only [processTask_iter, processTask_append, download_snd]

theorem iter_tm (E : Env) (p : Nat) (w : World) (url : String) :
    (processTask_iter E p w url).tm = w.tm := by
  simp [iter_eq, saveTask, World.SaveTask, World.AddResult, World.assign]

theorem iter_downloads (E : Env) (p : Nat) (w : World) (url : String) :
    (processTask_iter E p w url).downloads = w.downloads ++ [url] := by
  simp [iter_eq, saveTask, World.SaveTask, World.AddResult, World.assign]

theorem iter_heap_length (E : Env) (p : Nat) (w : World) (url : String) :
    (processTask_iter E p w url).heap.length = w.heap.length := by
  simp [iter_eq, saveTask, World.SaveTask, World.AddResult, World.assign]

theorem iter_deref (E : Env) (p : Nat) (w : World) (url : String) (h : p < w.heap.length) :
    (processTask_iter E p w url).deref p
      = (w.deref p).AddResult (processTask_download E w url).1.1 := by
  simp [iter_eq, saveTask, World.SaveTask, World.AddResult, World.assign, World.deref,
    List.getD_eq_getElem?_getD, h]

theorem iter_saved (E : Env) (p : Nat) (w : World) (url : String) (h : p < w.heap.length) :
    (processTask_iter E p w url).saved
      = w.saved ++ [(w.deref p).AddResult (processTask_download E w url).1.1] := by
  simp [iter_eq, saveTask, World.SaveTask, World.AddResult, World.assign, World.deref,
    List.getD_eq_getElem?_getD, h]

/-- The loop over `xs ++ ys`, when no shutdown is seen while `xs` is visited, is the loop
over `ys` started after the passes for `xs`. -/
theorem processTask_loop_append (E : Env) (sb : Nat → Bool) (p : Nat) (ys : List String) :
    ∀ (xs : List String) (i : Nat) (a : Bool) (w : World), w.tm.ctxDone = false →
      (∀ j, i ≤ j → j < i + xs.length → sb j = false) →
      processTask_loop E sb p (xs ++ ys) i a w
        = processTask_loop E sb p ys (i + xs.length)
            (a && (downloadOutcomes E w.downloads xs).all (fun o => o.2))
            (xs.foldl (processTask_iter E p) w) := by
  intro xs
  induction xs with
  | nil => intro i a w _ _; simp [downloadOutcomes]
  | cons x xs ih =>
    intro i a w hc hsb
    have h0 : sb i = false := hsb i (le_refl _) (by simp)
    have h1 : (processTask_iter E p w x).tm.ctxDone = false := by rw [iter_tm]; exact hc
    have h2 : ∀ j, i + 1 ≤ j → j < i + 1 + xs.length → sb j = false := by
      intro j hj1 hj2
      exact hsb j (by omega) (by simp only [List.length_cons]; omega)
    simp only [List.cons_append, processTask_loop, h0, hc, Bool.false_eq_true, if_false,
      List.foldl_cons]
    have ih1 := ih (i + 1) (a && (processTask_download E w x).1.2) _ h1 h2
    simp only [List.append_eq] at ih1 ⊢
    rw [ih1, iter_downloads]
    simp only [downloadOutcomes, List.all_cons, List.length_cons, ← download_fst, Bool.and_assoc]
    congr 1
    omega

theorem foldl_AddResult (rs : List FileResult) :
    ∀ t : DownloadTask, rs.foldl DownloadTask.AddResult t
      = { t with Results := t.Results ++ rs } := by
  induction rs with
  | nil => intro t; simp
  | cons r rs ih => intro t; simp [ih, DownloadTask.AddResult]

theorem snapshots_status (rs : List FileResult) :
    ∀ (t s : DownloadTask), s ∈ snapshots t rs → s.Status = t.Status := by
  induction rs with
  | nil => intro t s h; simp [snapshots] at h
  | cons r rs ih =>
    intro t s h
    simp only [snapshots, List.mem_cons] at h
    rcases h with h | h
    · rw [h]; rfl
    · rw [ih _ _ h]; rfl

theorem snapshots_length (rs : List FileResult) :
    ∀ t : DownloadTask, (snapshots t rs).length = rs.length := by
  induction rs with
  | nil => intro t; rfl
  | cons r rs ih => intro t; simp [snapshots, ih]

theorem foldl_iter_tm (E : Env) (p : Nat) (xs : List String) :
    ∀ w : World, (xs.foldl (processTask_iter E p) w).tm = w.tm := by
  induction xs with
  | nil => intro w; rfl
  | cons x xs ih => intro w; rw [List.foldl_cons, ih, iter_tm]

theorem foldl_iter_heap_length (E : Env) (p : Nat) (xs : List String) :
    ∀ w : World, (xs.foldl (processTask_iter E p) w).heap.length = w.heap.length := by
  induction xs with
  | nil => intro w; rfl
  | cons x xs ih => intro w; rw [List.foldl_cons, ih, iter_heap_length]

theorem foldl_iter_downloads (E : Env) (p : Nat) (xs : List String) :
    ∀ w : World, (xs.foldl (processTask_iter E p) w).downloads = w.downloads ++ xs := by
  induction xs with
  | nil => intro w; simp
  | cons x xs ih => intro w; rw [List.foldl_cons, ih, iter_downloads]; simp

theorem foldl_iter_deref (E : Env) (p : Nat) (xs : List String) :
    ∀ w : World, p < w.heap.length →
      (xs.foldl (processTask_iter E p) w).deref p
        = { w.deref p with Results := (w.deref p).Results
              ++ (downloadOutcomes E w.downloads xs).map (fun o => o.1) } := by
  induction xs with
  | nil => intro w _; simp [downloadOutcomes]
  | cons x xs ih =>
    intro w h
    rw [List.foldl_cons, ih _ (by rw [iter_heap_length]; exact h), iter_deref E p w x h,
      iter_downloads]
    simp [downloadOutcomes, DownloadTask.AddResult, ← download_fst]

theorem foldl_iter_saved (E : Env) (p : Nat) (xs : List String) :
    ∀ w : World, p < w.heap.length →
      (xs.foldl (processTask_iter E p) w).saved
        = w.saved ++ snapshots (w.deref p)
            ((downloadOutcomes E w.downloads xs).map (fun o => o.1)) := by
  induction xs with
  | nil => intro w _; simp [downloadOutcomes, snapshots]
  | cons x xs ih =>
    intro w h
    rw [List.foldl_cons, ih _ (by rw [iter_heap_length]; exact h), iter_deref E p w x h,
      iter_downloads, iter_saved E p w x h]
    simp [downloadOutcomes, snapshots, ← download_fst]

/-! ## The locked blocks of processTask -/

theorem UpdateStatus_deref (w : World) (p : Nat) (st : TaskStatus) (h : p < w.heap.length) :
    (w.UpdateStatus p st).deref p = (w.deref p).UpdateStatus st w.clock := by
  simp [World.UpdateStatus, World.assign, World.deref, List.getD_eq_getElem?_getD, h]

theorem saveTask_deref (S : Storage) (w : World) (p q : Nat) :
    (saveTask S w p).deref q = w.deref q := rfl

theorem saveTask_heap (S : Storage) (w : World) (p : Nat) : (saveTask S w p).heap = w.heap := rfl

theorem saveTask_tm (S : Storage) (w : World) (p : Nat) : (saveTask S w p).tm = w.tm := rfl

theorem saveTask_downloads (S : Storage) (w : World) (p : Nat) :
    (saveTask S w p).downloads = w.downloads := rfl

theorem saveTask_saved (S : Storage) (w : World) (p : Nat) :
    (saveTask S w p).saved = w.saved ++ [w.deref p] := rfl

theorem UpdateStatus_heap_length (w : World) (p : Nat) (st : TaskStatus) :
    (w.UpdateStatus p st).heap.length = w.heap.length := by
  simp [World.UpdateStatus, World.assign]

theorem UpdateStatus_tm (w : World) (p : Nat) (st : TaskStatus) :
    (w.UpdateStatus p st).tm = w.tm := rfl

theorem UpdateStatus_downloads (w : World) (p : Nat) (st : TaskStatus) :
    (w.UpdateStatus p st).downloads = w.downloads := rfl

theorem UpdateStatus_saved (w : World) (p : Nat) (st : TaskStatus) :
    (w.UpdateStatus p st).saved = w.saved := rfl

theorem begin_deref (E : Env) (w : World) (p : Nat) (h : p < w.heap.length) :
    (processTask_begin E w p).deref p = (w.deref p).UpdateStatus StatusProcessing w.clock := by
  rw [processTask_begin, saveTask_deref, UpdateStatus_deref w p _ h]

theorem begin_heap_length (E : Env) (w : World) (p : Nat) :
    (processTask_begin E w p).heap.length = w.heap.length := by
  rw [processTask_begin, saveTask_heap, UpdateStatus_heap_length]

theorem begin_tm (E : Env) (w : World) (p : Nat) : (processTask_begin E w p).tm = w.tm := rfl

theorem begin_downloads (E : Env) (w : World) (p : Nat) :
    (processTask_begin E w p).downloads = w.downloads := rfl

theorem begin_saved (E : Env) (w : World) (p : Nat) (h : p < w.heap.length) :
    (processTask_begin E w p).saved
      = w.saved ++ [(w.deref p).UpdateStatus StatusProcessing w.clock] := by
  rw [processTask_begin, saveTask_saved, UpdateStatus_deref w p _ h, UpdateStatus_saved]

/-- A run of `processTask` that sees no shutdown: the first block, one pass per URL, the
last block. -/
theorem processTask_uninterrupted (E : Env) (sb : Nat → Bool) (w : World) (p : Nat)
    (hp : p < w.heap.length) (hc : w.tm.ctxDone = false)
    (hsb : ∀ i, i < (w.deref p).URLs.length → sb i = false) :
    processTask E sb w p
      = processTask_finalize E
          ((w.deref p).URLs.foldl (processTask_iter E p) (processTask_begin E w p)) p
          ((downloadOutcomes E w.downloads (w.deref p).URLs).all (fun o => o.2)) := by
  have h := processTask_loop_append E sb p [] (w.deref p).URLs 0 true (processTask_begin E w p)
    (by rw [begin_tm]; exact hc) (fun j _ hj => hsb j (by omega))
  simp only [List.append_nil, Bool.true_and, begin_downloads] at h
  simp only [processTask, begin_deref E w p hp, DownloadTask.UpdateStatus, h, processTask_loop]

/-- A run of `processTask` in which `Shutdown` is first called just before the check that
precedes the URL of index `k`: the first block, one pass for each of the first `k` URLs,
then the return on `ctx.Done()`. -/
theorem processTask_interrupted (E : Env) (sb : Nat → Bool) (w : World) (p k : Nat)
    (hp : p < w.heap.length) (hc : w.tm.ctxDone = false) (hk : k < (w.deref p).URLs.length)
    (hsb : ∀ i, i < k → sb i = false) (hsk : sb k = true) :
    processTask E sb w p
      = Shutdown (((w.deref p).URLs.take k).foldl (processTask_iter E p)
          (processTask_begin E w p)) := by
  obtain ⟨u, rest, hd⟩ : ∃ u rest, (w.deref p).URLs.drop k = u :: rest := by
    cases hdr : (w.deref p).URLs.drop k with
    | nil => simp at hdr; omega
    | cons u rest => exact ⟨u, rest, rfl⟩
  have hlen : ((w.deref p).URLs.take k).length = k := by simp; omega
  have h := processTask_loop_append E sb p (u :: rest) ((w.deref p).URLs.take k) 0 true
    (processTask_begin E w p) (by rw [begin_tm]; exact hc)
    (fun j _ hj => hsb j (by rw [hlen] at hj; omega))
  rw [← hd, List.take_append_drop, hlen, hd] at h
  simp only [processTask, begin_deref E w p hp, DownloadTask.UpdateStatus, h, processTask_loop,
    Nat.zero_add, hsk, if_true, Shutdown]

theorem finalize_deref (E : Env) (w : World) (p : Nat) (a : Bool) (h : p < w.heap.length) :
    (processTask_finalize E w p a).deref p
      = (w.deref p).UpdateStatus (if a then StatusCompleted else StatusFailed) w.clock := by
  rw [processTask_finalize, saveTask_deref, UpdateStatus_deref w p _ h]

theorem outcome_ok_iff (E : Env) (h : E.downloader.ReportsErrors) (urls : List String) :
    ∀ hist, ∀ o ∈ downloadOutcomes E hist urls, (o.2 = true ↔ o.1.Error = "") := by
  induction urls with
  | nil => intro hist o ho; simp [downloadOutcomes] at ho
  | cons u us ih =>
    intro hist o ho
    simp only [downloadOutcomes, List.mem_cons] at ho
    rcases ho with ho | ho
    · subst ho
      have h1 := (h hist u).1
      have h2 := (h hist u).2
      simp only [processTask_download, NewTaskManager]
      cases hr : (E.downloader.DownloadFile hist u).2 with
      | none => simp [h1 hr]
      | some err =>
        simp only [Bool.false_eq_true, false_iff]
        intro he
        exact h2 (by rw [hr, he])
    · exact ih _ o ho

/-- The final status after a run of `processTask` that sees no shutdown. -/
theorem processTask_status (E : Env) (sb : Nat → Bool) (w : World) (p : Nat)
    (hp : p < w.heap.length) (hc : w.tm.ctxDone = false)
    (hsb : ∀ i, i < (w.deref p).URLs.length → sb i = false) :
    ((processTask E sb w p).deref p).Status
      = (if (downloadOutcomes E w.downloads (w.deref p).URLs).all (fun o => o.2)
          then StatusCompleted else StatusFailed)
    ∧ ((processTask E sb w p).deref p).Results
      = (w.deref p).Results
          ++ (downloadOutcomes E w.downloads (w.deref p).URLs).map (fun o => o.1) := by
  have hl : p < ((w.deref p).URLs.foldl (processTask_iter E p)
      (processTask_begin E w p)).heap.length := by
    rw [foldl_iter_heap_length, begin_heap_length]; exact hp
  rw [processTask_uninterrupted E sb w p hp hc hsb, finalize_deref _ _ _ _ hl,
    foldl_iter_deref _ _ _ _ (by rw [begin_heap_length]; exact hp), begin_deref E w p hp]
  exact ⟨rfl, rfl⟩

/-! ## C1: the final status -/

theorem status_completed_ne_failed : StatusCompleted ≠ StatusFailed := by decide

/-- C1, as amended. After `processTask` has run over all URLs of a task without seeing the
shutdown signal, for every task and every download capability, the final status is
Completed if and only if every call of the download capability returned a nil error, and
Failed otherwise. When moreover the task started with no results and the capability tells
failure through its error alone, the status is Completed if and only if no entry of the
results carries a non-empty error. -/
theorem processTask_completed_iff (E : Env) (sb : Nat → Bool) (w : World) (p : Nat)
    (hp : p < w.heap.length) (hc : w.tm.ctxDone = false)
    (hsb : ∀ i, i < (w.deref p).URLs.length → sb i = false) :
    (((processTask E sb w p).deref p).Status = StatusCompleted
        ↔ ∀ o ∈ downloadOutcomes E w.downloads (w.deref p).URLs, o.2 = true)
    ∧ (((processTask E sb w p).deref p).Status = StatusFailed
        ↔ ¬ ∀ o ∈ downloadOutcomes E w.downloads (w.deref p).URLs, o.2 = true)
    ∧ ((w.deref p).Results = [] → E.downloader.ReportsErrors →
        (((processTask E sb w p).deref p).Status = StatusCompleted
          ↔ ∀ r ∈ ((processTask E sb w p).deref p).Results, r.Error = "")) := by
  obtain ⟨hs, hr⟩ := processTask_status E sb w p hp hc hsb
  have key : ((processTask E sb w p).deref p).Status = StatusCompleted
      ↔ ∀ o ∈ downloadOutcomes E w.downloads (w.deref p).URLs, o.2 = true := by
    rw [hs, ← List.all_eq_true]
    split
    · simp [*]
    · simp [*, Ne.symm status_completed_ne_failed]
  refine ⟨key, ?_, ?_⟩
  · rw [hs, ← List.all_eq_true]
    split
    · simp [*, status_completed_ne_failed]
    · simp [*]
  · intro h0 hD
    rw [key, hr, h0]
    simp only [List.nil_append, List.mem_map, forall_exists_index, and_imp,
      forall_apply_eq_imp_iff₂]
    constructor
    · intro h o ho
      exact (outcome_ok_iff E hD _ _ o ho).1 (h o ho)
    · intro h o ho
      exact (outcome_ok_iff E hD _ _ o ho).2 (h o ho)

theorem string_append_ne_empty (a b : String) (h : a ≠ "") : a ++ b ≠ "" := by
  intro hab
  apply h
  have h1 : (a ++ b).data = [] := by rw [hab]
  rw [String.data_append, List.append_eq_nil] at h1
  exact String.ext h1.1

/-- The adapter over the downloader of downloader.go tells failure through its error
alone, whatever the outside world does. -/
theorem adapter_reportsErrors (fetch : List String → String → FetchOutcome) :
    (NewDownloaderAdapter fetch).ReportsErrors := by
  intro hist url
  simp only [NewDownloaderAdapter, downloaderAdapter.DownloadFile, Downloader.DownloadFile]
  cases fetch hist url with
  | requestFailed err =>
    exact ⟨by simp, by simpa using string_append_ne_empty _ err (by decide)⟩
  | badStatus code status =>
    refine ⟨by simp, ?_⟩
    have := string_append_ne_empty "HTTP status " (toString code ++ ": " ++ status) (by decide)
    simpa [String.append_assoc] using this
  | createFailed err =>
    exact ⟨by simp, by simpa using string_append_ne_empty _ err (by decide)⟩
  | writeFailed err =>
    exact ⟨by simp, by simpa using string_append_ne_empty _ err (by decide)⟩
  | ok fileName size => exact ⟨by simp, by simp⟩

/-- C1 as stated fails: with a download capability that returns a nil error and a result
whose `Error` field is set, the task ends Completed although its results carry errors. -/
theorem processTask_completed_iff_counterexample :
    ¬ (((processTask fieldErrorEnv (fun _ => false) exampleWorld 0).deref 0).Status
          = StatusCompleted
        ↔ ∀ r ∈ ((processTask fieldErrorEnv (fun _ => false) exampleWorld 0).deref 0).Results,
            r.Error = "") := by
  decide

/-- C1, as amended, on the example of the specification run through the adapter. -/
theorem processTask_completed_iff_witness :
    (0 < exampleWorld.heap.length ∧ exampleWorld.tm.ctxDone = false
      ∧ (exampleWorld.deref 0).Results = [] ∧ exampleEnv.downloader.ReportsErrors)
    ∧ ((processTask exampleEnv (fun _ => false) exampleWorld 0).deref 0).Status = StatusFailed
    ∧ ¬ ∀ r ∈ ((processTask exampleEnv (fun _ => false) exampleWorld 0).deref 0).Results,
          r.Error = "" := by
  have h := processTask_completed_iff exampleEnv (fun _ => false) exampleWorld 0
    (by decide) rfl (fun _ _ => rfl)
  have hD : exampleEnv.downloader.ReportsErrors := adapter_reportsErrors exampleFetch
  have hf : ((processTask exampleEnv (fun _ => false) exampleWorld 0).deref 0).Status
      = StatusFailed := by decide
  refine ⟨⟨by decide, rfl, rfl, hD⟩, hf, ?_⟩
  intro hall
  have hcomp := (h.2.2 rfl hD).2 hall
  rw [hf] at hcomp
  exact status_completed_ne_failed hcomp.symm

/-! ## C2: results and URLs -/

/-- C2 fails on the code. A process interrupted by `Shutdown` after the first of two URLs
leaves the task persisted as Processing with one result; after a restart `RestoreTasks`
requeues it with that result kept, and the worker appends one result per URL again: the
registered task has three results for two URLs when it reaches a terminal status. -/
theorem restored_task_results_exceed_urls :
    (run exampleEnv interruptedRun (NewTaskManager 1)).map (fun w => observe w "t1")
      = some (some (StatusProcessing, 1, 2))
    ∧ ((run exampleEnv interruptedRun (NewTaskManager 1)).bind
        (fun w => run exampleEnv restoredRun (restart w 1))).map (fun w => observe w "t1")
      = some (some (StatusFailed, 3, 2)) := by
  decide

/-! ## C3, C4: CreateTask -/

theorem mapGet_mapSet (m : List (String × Nat)) (k : String) (v : Nat) :
    mapGet (mapSet m k v) k = some v := by
  simp [mapGet, mapSet]

theorem mapGet_mapSet_ne (m : List (String × Nat)) (k k' : String) (v : Nat) (h : k' ≠ k) :
    mapGet (mapSet m k v) k' = mapGet m k' := by
  have h1 : (k == k') = false := by simpa using Ne.symm h
  simp only [mapGet, mapSet, List.find?_cons, h1, List.find?_filter]
  congr 2
  funext e
  by_cases he : e.1 = k'
  · simp [he, h]
  · simp [he]

theorem validateURLs_eq_none (P : String → Bool) (urls : List String) :
    validateURLs P urls = none ↔ urls ≠ [] ∧ ∀ u ∈ urls, P u = true := by
  unfold validateURLs
  cases urls with
  | nil => simp
  | cons a l =>
    simp only [List.length_cons, Nat.add_one_ne_zero, if_false, ne_eq, reduceCtorEq,
      not_false_eq_true, true_and]
    cases hf : List.find? (fun u => !P u) (a :: l) with
    | none =>
      simp only [true_iff]
      intro u hu
      simpa using List.find?_eq_none.1 hf u hu
    | some u =>
      simp only [reduceCtorEq, false_iff]
      intro hall
      have h1 := List.find?_some hf
      have h2 := hall u (List.mem_of_find?_eq_some hf)
      simp [h2] at h1

theorem NewDownloadTask_valid (P : String → Bool) (urls : List String) (id : String) (now : Nat)
    (hne : urls ≠ []) (hv : ∀ u ∈ urls, P u = true) :
    NewDownloadTask P urls id now (now + 1) = .ok (pendingTask urls id now) := by
  simp [NewDownloadTask, (validateURLs_eq_none P urls).2 ⟨hne, hv⟩, pendingTask]

/-- `CreateTask` on URLs that pass validation: the task is built, registered and handed to
`SaveTask`; then either the save error is returned, or the task is sent on the queue, or
the queue is full. -/
theorem CreateTask_valid (E : Env) (w : World) (urls : List String) (id : String)
    (hne : urls ≠ []) (hv : ∀ u ∈ urls, E.ParseRequestURI u = true) :
    CreateTask E w urls id =
      match E.storage.SaveTask w.saved (pendingTask urls id w.clock) with
      | some err =>
        (.error err, { CreateTask_register w (pendingTask urls id w.clock) with
                        saved := w.saved ++ [pendingTask urls id w.clock] })
      | none =>
        if w.tm.workQueue.length < workQueueCap then
          (.ok w.heap.length,
            { CreateTask_register w (pendingTask urls id w.clock) with
              saved := w.saved ++ [pendingTask urls id w.clock]
              tm := { tasks := mapSet w.tm.tasks id w.heap.length
                      workQueue := w.tm.workQueue ++ [w.heap.length]
                      ctxDone := w.tm.ctxDone } })
        else
          (.error "work queue is full",
            { CreateTask_register w (pendingTask urls id w.clock) with
              saved := w.saved ++ [pendingTask urls id w.clock] }) := by
  simp only [CreateTask, NewDownloadTask_valid E.ParseRequestURI urls id w.clock hne hv,
    World.SaveTask, CreateTask_register, trySend]
  cases E.storage.SaveTask w.saved (pendingTask urls id w.clock) with
  | some err => rfl
  | none =>
    by_cases hq : w.tm.workQueue.length < workQueueCap
    · simp [hq, pendingTask]
    · simp [hq]

theorem deref_new (w : World) (t : DownloadTask) (w' : World) (h : w'.heap = w.heap ++ [t]) :
    w'.deref w.heap.length = t := by
  simp [World.deref, h, List.getD_eq_getElem?_getD]

/-- C3. For every non-empty list of URLs that all pass validation, when the work queue has
a free slot and the save succeeds, `CreateTask` returns without error a task whose URLs are
the submitted list, whose status is Pending and whose results are empty; afterwards
`GetTask` on the returned id yields that task, and the task is the last element of the work
queue. -/
theorem CreateTask_success (E : Env) (w : World) (urls : List String) (id : String)
    (hne : urls ≠ []) (hv : ∀ u ∈ urls, E.ParseRequestURI u = true)
    (hfree : w.tm.workQueue.length < workQueueCap)
    (hsave : E.storage.SaveTask w.saved (pendingTask urls id w.clock) = none) :
    ∃ p, (CreateTask E w urls id).1 = .ok p
      ∧ ((CreateTask E w urls id).2.deref p).URLs = urls
      ∧ ((CreateTask E w urls id).2.deref p).Status = StatusPending
      ∧ ((CreateTask E w urls id).2.deref p).Results = []
      ∧ GetTask (CreateTask E w urls id).2 ((CreateTask E w urls id).2.deref p).ID = .ok p
      ∧ (CreateTask E w urls id).2.tm.workQueue = w.tm.workQueue ++ [p]
      ∧ (CreateTask E w urls id).2.tm.workQueue.getLast? = some p := by
  refine ⟨w.heap.length, ?_⟩
  have hc := CreateTask_valid E w urls id hne hv
  simp only [hsave, hfree, if_true] at hc
  have hd : (CreateTask E w urls id).2.deref w.heap.length = pendingTask urls id w.clock := by
    apply deref_new
    rw [hc]
    rfl
  rw [hd, hc]
  simp [pendingTask, GetTask, mapGet_mapSet]

/-- C3 on a new manager, with the store of storage.go. -/
theorem CreateTask_success_witness :
    (exampleURLs ≠ [] ∧ (∀ u ∈ exampleURLs, exampleEnv.ParseRequestURI u = true)
      ∧ (NewTaskManager 1).tm.workQueue.length < workQueueCap
      ∧ exampleEnv.storage.SaveTask (NewTaskManager 1).saved
          (pendingTask exampleURLs "t1" (NewTaskManager 1).clock) = none)
    ∧ ∃ p, (CreateTask exampleEnv (NewTaskManager 1) exampleURLs "t1").1 = .ok p
      ∧ ((CreateTask exampleEnv (NewTaskManager 1) exampleURLs "t1").2.deref p).URLs
          = exampleURLs
      ∧ ((CreateTask exampleEnv (NewTaskManager 1) exampleURLs "t1").2.deref p).Status
          = StatusPending
      ∧ ((CreateTask exampleEnv (NewTaskManager 1) exampleURLs "t1").2.deref p).Results = []
      ∧ GetTask (CreateTask exampleEnv (NewTaskManager 1) exampleURLs "t1").2
          ((CreateTask exampleEnv (NewTaskManager 1) exampleURLs "t1").2.deref p).ID = .ok p
      ∧ (CreateTask exampleEnv (NewTaskManager 1) exampleURLs "t1").2.tm.workQueue
          = (NewTaskManager 1).tm.workQueue ++ [p]
      ∧ (CreateTask exampleEnv (NewTaskManager 1) exampleURLs "t1").2.tm.workQueue.getLast?
          = some p :=
  ⟨⟨by decide, by decide, by decide, rfl⟩,
    CreateTask_success exampleEnv (NewTaskManager 1) exampleURLs "t1" (by decide) (by decide)
      (by decide) rfl⟩

/-- C4. For every URL list that is empty or holds a URL that fails validation, `CreateTask`
returns a validation error and no task, and leaves the whole world as it was: no registry
entry is added, `SaveTask` is not called, nothing is sent on the work queue. -/
theorem CreateTask_invalid (E : Env) (w : World) (urls : List String) (id : String)
    (h : urls = [] ∨ ∃ u ∈ urls, E.ParseRequestURI u = false) :
    (∃ err, (CreateTask E w urls id).1 = .error err
        ∧ (err = "urls list cannot be empty"
            ∨ ∃ u ∈ urls, E.ParseRequestURI u = false ∧ err = "invalid URL: " ++ u))
    ∧ (CreateTask E w urls id).2 = w := by
  have hnone : validateURLs E.ParseRequestURI urls ≠ none := by
    rw [Ne, validateURLs_eq_none]
    rintro ⟨hne, hall⟩
    rcases h with h | ⟨u, hu, hf⟩
    · exact hne h
    · rw [hall u hu] at hf; exact Bool.noConfusion hf
  cases hval : validateURLs E.ParseRequestURI urls with
  | none => exact absurd hval hnone
  | some err =>
    simp only [CreateTask, NewDownloadTask, hval, and_true]
    refine ⟨err, rfl, ?_⟩
    unfold validateURLs at hval
    split at hval
    · left; exact (Option.some.inj hval).symm
    · right
      cases hf : List.find? (fun u => !E.ParseRequestURI u) urls with
      | none => rw [hf] at hval; exact Option.noConfusion hval
      | some u =>
        rw [hf] at hval
        refine ⟨u, List.mem_of_find?_eq_some hf, ?_, (Option.some.inj hval).symm⟩
        simpa using List.find?_some hf

/-- C4 on the world of the example, for a list whose second URL fails validation. -/
theorem CreateTask_invalid_witness :
    (["http://a/x", "b"] = [] ∨ ∃ u ∈ ["http://a/x", "b"], exampleEnv.ParseRequestURI u = false)
    ∧ (CreateTask exampleEnv exampleWorld ["http://a/x", "b"] "t2").1 = .error "invalid URL: b"
    ∧ (CreateTask exampleEnv exampleWorld ["http://a/x", "b"] "t2").2 = exampleWorld :=
  ⟨Or.inr ⟨"b", by decide, by decide⟩, rfl,
    (CreateTask_invalid exampleEnv exampleWorld ["http://a/x", "b"] "t2"
      (Or.inr ⟨"b", by decide, by decide⟩)).2⟩

/-! ## C5: the adapter -/

/-- C5 fails on the code. On the example of the specification run through the adapter (the
first request succeeds with file name "x" and 100 bytes, the second fails with "timeout"),
the download is invoked once per URL in order, but the result recorded for the failed URL
has an empty `url`: the adapter returns `FileResult{}` with the error, dropping the URL the
downloader had set. -/
theorem adapter_failure_drops_url :
    (processTask exampleEnv (fun _ => false) exampleWorld 0).downloads
      = ["http://a/x", "http://b/y"]
    ∧ ((processTask exampleEnv (fun _ => false) exampleWorld 0).deref 0).Results
      = [{ URL := "http://a/x", FileName := "x", Error := "", Size := 100 },
         { URL := "", FileName := "", Error := "HTTP request failed: timeout", Size := 0 }]
    ∧ (Downloader.DownloadFile (.requestFailed "timeout") "http://b/y").1.URL = "http://b/y" := by
  decide

/-! ## C9: shutdown during processTask -/

theorem Shutdown_deref (w : World) (p : Nat) : (Shutdown w).deref p = w.deref p := rfl

theorem Shutdown_saved (w : World) : (Shutdown w).saved = w.saved := rfl

theorem Shutdown_downloads (w : World) : (Shutdown w).downloads = w.downloads := rfl

/-- C9. For every task that starts with no results and every index `k` below its number of
URLs, if `Shutdown` is first called just before the check that precedes the URL of index
`k`, `processTask` returns with the status Processing and exactly `k` results, those of
the first `k` URLs in order; the download capability was called for the first `k` URLs
and for no other; and every snapshot saved on the way, one after each change of the task,
has status Processing: neither Completed nor Failed was ever set. -/
theorem processTask_shutdown (E : Env) (sb : Nat → Bool) (w : World) (p k : Nat)
    (hp : p < w.heap.length) (hc : w.tm.ctxDone = false) (h0 : (w.deref p).Results = [])
    (hk : k < (w.deref p).URLs.length)
    (hsb : ∀ i, i < k → sb i = false) (hsk : sb k = true) :
    ((processTask E sb w p).deref p).Status = StatusProcessing
    ∧ ((processTask E sb w p).deref p).Results
        = (downloadOutcomes E w.downloads ((w.deref p).URLs.take k)).map (fun o => o.1)
    ∧ ((processTask E sb w p).deref p).Results.length = k
    ∧ (processTask E sb w p).downloads = w.downloads ++ (w.deref p).URLs.take k
    ∧ ∃ snaps, (processTask E sb w p).saved = w.saved ++ snaps ∧ snaps.length = k + 1
        ∧ ∀ t ∈ snaps, t.Status = StatusProcessing ∧ t.Status ≠ StatusCompleted
            ∧ t.Status ≠ StatusFailed := by
  have hb : p < (processTask_begin E w p).heap.length := by
    rw [begin_heap_length]; exact hp
  have hlen : ((w.deref p).URLs.take k).length = k := by simp; omega
  rw [processTask_interrupted E sb w p k hp hc hk hsb hsk, Shutdown_deref, Shutdown_saved,
    Shutdown_downloads, foldl_iter_deref _ _ _ _ hb, foldl_iter_saved _ _ _ _ hb,
    foldl_iter_downloads, begin_deref E w p hp, begin_downloads, begin_saved E w p hp]
  refine ⟨rfl, by simp [DownloadTask.UpdateStatus, h0], ?_, rfl, ?_⟩
  · simp [DownloadTask.UpdateStatus, h0, downloadOutcomes_length]
    omega
  · refine ⟨_ :: _, by rw [List.append_assoc]; rfl, ?_, ?_⟩
    · simp only [List.length_cons, Nat.add_right_cancel_iff]
      generalize hrs : List.map (fun o => o.1) (downloadOutcomes E w.downloads
        (List.take k (w.deref p).URLs)) = rs
      have hrl : rs.length = k := by rw [← hrs]; simp [downloadOutcomes_length]; omega
      simp [snapshots_length, hrl]
    · intro t ht
      have hst : t.Status = StatusProcessing := by
        rcases List.mem_cons.1 ht with h | h
        · rw [h]; rfl
        · rw [snapshots_status _ _ _ h]; rfl
      rw [hst]
      exact ⟨rfl, by decide, by decide⟩

/-- C9 on the example: `Shutdown` just before the second URL. -/
theorem processTask_shutdown_witness :
    (0 < exampleWorld.heap.length ∧ exampleWorld.tm.ctxDone = false
      ∧ (exampleWorld.deref 0).Results = [] ∧ 1 < (exampleWorld.deref 0).URLs.length)
    ∧ ((processTask exampleEnv (fun i => decide (i = 1)) exampleWorld 0).deref 0).Status
        = StatusProcessing
    ∧ ((processTask exampleEnv (fun i => decide (i = 1)) exampleWorld 0).deref 0).Results.length
        = 1
    ∧ (processTask exampleEnv (fun i => decide (i = 1)) exampleWorld 0).downloads
        = exampleWorld.downloads ++ (exampleWorld.deref 0).URLs.take 1 := by
  have h := processTask_shutdown exampleEnv (fun i => decide (i = 1)) exampleWorld 0 1
    (by decide) rfl rfl (by decide) (fun i hi => by simp; omega) (by decide)
  exact ⟨⟨by decide, rfl, rfl, by decide⟩, h.1, h.2.2.1, h.2.2.2.1⟩

/-! ## C6: the full queue -/

/-- C6, as amended. When the work queue holds 100 tasks and the save succeeds, `CreateTask`
with a valid non-empty URL list returns the error "work queue is full" and no task, and
leaves the queue as it was, while the new task has been passed to `SaveTask` and is in the
registry under its id, with status Pending. -/
theorem CreateTask_queue_full (E : Env) (w : World) (urls : List String) (id : String)
    (hne : urls ≠ []) (hv : ∀ u ∈ urls, E.ParseRequestURI u = true)
    (hfull : w.tm.workQueue.length = 100)
    (hsave : E.storage.SaveTask w.saved (pendingTask urls id w.clock) = none) :
    (CreateTask E w urls id).1 = .error "work queue is full"
    ∧ (CreateTask E w urls id).2.tm.workQueue = w.tm.workQueue
    ∧ (CreateTask E w urls id).2.saved = w.saved ++ [pendingTask urls id w.clock]
    ∧ ∃ p, GetTask (CreateTask E w urls id).2 id = .ok p
        ∧ (CreateTask E w urls id).2.deref p = pendingTask urls id w.clock
        ∧ ((CreateTask E w urls id).2.deref p).Status = StatusPending := by
  have hc := CreateTask_valid E w urls id hne hv
  have hq : ¬ w.tm.workQueue.length < workQueueCap := by rw [hfull]; decide
  simp only [hsave, hq, if_false] at hc
  have hd : (CreateTask E w urls id).2.deref w.heap.length = pendingTask urls id w.clock := by
    apply deref_new
    rw [hc]
    rfl
  refine ⟨by rw [hc], by rw [hc]; rfl, by rw [hc], w.heap.length, ?_, hd, by rw [hd]; rfl⟩
  rw [hc]
  simp [GetTask, CreateTask_register, pendingTask, mapGet_mapSet]

theorem fullQueueWorld_length : fullQueueWorld.tm.workQueue.length = 100 := by
  set_option maxRecDepth 100000 in decide

/-- C6 as stated fails: with the queue full and a save that fails, `CreateTask` returns the
error of the save, not "work queue is full". -/
theorem CreateTask_queue_full_counterexample :
    fullQueueWorld.tm.workQueue.length = 100
    ∧ (CreateTask smallDiskEnv fullQueueWorld ["http://a/x"] "t100").1
        = .error "no space left on device"
    ∧ (CreateTask smallDiskEnv fullQueueWorld ["http://a/x"] "t100").1
        ≠ .error "work queue is full" := by
  have h : (CreateTask smallDiskEnv fullQueueWorld ["http://a/x"] "t100").1
      = .error "no space left on device" := by
    set_option maxRecDepth 100000 in rfl
  refine ⟨fullQueueWorld_length, h, ?_⟩
  rw [h]
  intro he
  exact absurd (Except.error.inj he) (by decide)

/-- C6, as amended, on the full queue with the store of storage.go. -/
theorem CreateTask_queue_full_witness :
    (["http://a/x"] ≠ [] ∧ (∀ u ∈ ["http://a/x"], exampleEnv.ParseRequestURI u = true)
      ∧ fullQueueWorld.tm.workQueue.length = 100)
    ∧ (CreateTask exampleEnv fullQueueWorld ["http://a/x"] "t100").1
        = .error "work queue is full"
    ∧ (CreateTask exampleEnv fullQueueWorld ["http://a/x"] "t100").2.tm.workQueue
        = fullQueueWorld.tm.workQueue := by
  have h := CreateTask_queue_full exampleEnv fullQueueWorld ["http://a/x"] "t100" (by decide)
    (by decide) fullQueueWorld_length rfl
  exact ⟨⟨by decide, by decide, fullQueueWorld_length⟩, h.1, h.2.1⟩

/-! ## C10: failures of the store -/

theorem iter_storage (E : Env) (S : Storage) (p : Nat) (w : World) (url : String) :
    processTask_iter { E with storage := S } p w url = processTask_iter E p w url := rfl

theorem loop_storage (E : Env) (S : Storage) (sb : Nat → Bool) (p : Nat) (urls : List String) :
    ∀ (i : Nat) (a : Bool) (w : World),
      processTask_loop { E with storage := S } sb p urls i a w
        = processTask_loop E sb p urls i a w := by
  induction urls with
  | nil => intro i a w; rfl
  | cons u us ih =>
    intro i a w
    simp only [processTask_loop]
    split
    · rfl
    · rw [ih]; rfl

theorem processTask_storage (E : Env) (S : Storage) (sb : Nat → Bool) (w : World) (p : Nat) :
    processTask { E with storage := S } sb w p = processTask E sb w p := by
  simp only [processTask, loop_storage]
  rfl

theorem workerStep_storage (E : Env) (S : Storage) (w : World) (i : Nat) :
    workerStep { E with storage := S } w i = workerStep E w i := by
  unfold workerStep
  split <;> rfl

/-- C10, as amended. A failure of `SaveTask` is never propagated by `processTask`: the run
of `processTask`, and each of its atomic steps, leaves the same world (heap, registry,
queue, calls made) whatever the store answers. `CreateTask`, however, returns the error of
a failed save to its caller, with no task, and does not send the task on the work queue. -/
theorem save_failure (E : Env) (S : Storage) (sb : Nat → Bool) (w : World) (p i : Nat)
    (urls : List String) (id : String) :
    processTask { E with storage := S } sb w p = processTask E sb w p
    ∧ workerStep { E with storage := S } w i = workerStep E w i
    ∧ (urls ≠ [] → (∀ u ∈ urls, E.ParseRequestURI u = true) →
        ∀ err, E.storage.SaveTask w.saved (pendingTask urls id w.clock) = some err →
          (CreateTask E w urls id).1 = .error err
          ∧ (CreateTask E w urls id).2.tm.workQueue = w.tm.workQueue) := by
  refine ⟨processTask_storage E S sb w p, workerStep_storage E S w i, ?_⟩
  intro hne hv err hs
  have hc := CreateTask_valid E w urls id hne hv
  simp only [hs] at hc
  rw [hc]
  exact ⟨rfl, rfl⟩

/-- C10 as stated fails for `CreateTask`: on a new manager the same call returns the task
and queues it when the save succeeds, and returns the error of the save, with the queue
left empty, when the save fails. -/
theorem save_failure_counterexample :
    (CreateTask exampleEnv (NewTaskManager 1) exampleURLs "t1").1 = .ok 0
    ∧ (CreateTask failingEnv (NewTaskManager 1) exampleURLs "t1").1 = .error "disk failure"
    ∧ (CreateTask exampleEnv (NewTaskManager 1) exampleURLs "t1").2.tm.workQueue = [0]
    ∧ (CreateTask failingEnv (NewTaskManager 1) exampleURLs "t1").2.tm.workQueue = []
    ∧ (CreateTask failingEnv (NewTaskManager 1) exampleURLs "t1").2.tm
        ≠ (CreateTask exampleEnv (NewTaskManager 1) exampleURLs "t1").2.tm :=
  ⟨rfl, rfl, by decide, by decide, by decide⟩

/-- C10, as amended, on the example: with a store on which every save fails. -/
theorem save_failure_witness :
    (exampleURLs ≠ [] ∧ (∀ u ∈ exampleURLs, failingEnv.ParseRequestURI u = true)
      ∧ failingEnv.storage.SaveTask (NewTaskManager 1).saved
          (pendingTask exampleURLs "t1" (NewTaskManager 1).clock) = some "disk failure")
    ∧ processTask failingEnv (fun _ => false) exampleWorld 0
        = processTask exampleEnv (fun _ => false) exampleWorld 0
    ∧ (CreateTask failingEnv (NewTaskManager 1) exampleURLs "t1").1 = .error "disk failure"
    ∧ (CreateTask failingEnv (NewTaskManager 1) exampleURLs "t1").2.tm.workQueue
        = (NewTaskManager 1).tm.workQueue := by
  have h1 := save_failure exampleEnv failingStorage (fun _ => false) exampleWorld 0 0
    exampleURLs "t1"
  have h2 := (save_failure failingEnv failingStorage (fun _ => false) (NewTaskManager 1) 0 0
    exampleURLs "t1").2.2 (by decide) (by decide) "disk failure" rfl
  exact ⟨⟨by decide, by decide, rfl⟩, h1.1, h2.1, h2.2⟩

/-! ## C8: RestoreTasks -/

theorem RestoreTasks_entry_eq (w : World) (e : String × DownloadTask) :
    RestoreTasks_entry w e =
      { w with
        heap := w.heap ++ [restoredTask e.2 w.clock]
        clock := if e.2.IsFinished then w.clock else w.clock + 1
        tm := { tasks := mapSet w.tm.tasks e.1 w.heap.length
                workQueue := w.tm.workQueue
                  ++ (if e.2.IsFinished then [] else [w.heap.length]).take
                      (workQueueCap - w.tm.workQueue.length)
                ctxDone := w.tm.ctxDone } } := by
  unfold RestoreTasks_entry restoredTask
  cases hf : e.2.IsFinished with
  | true => simp
  | false =>
    by_cases hq : w.tm.workQueue.length < workQueueCap
    · have h1 : workQueueCap - w.tm.workQueue.length = (workQueueCap - w.tm.workQueue.length - 1) + 1 := by
        omega
      rw [h1]
      simp [trySend, World.UpdateStatus, World.assign, World.deref, hq,
        List.getD_eq_getElem?_getD]
    · have h1 : workQueueCap - w.tm.workQueue.length = 0 := by omega
      rw [h1]
      simp [trySend, World.UpdateStatus, World.assign, World.deref, hq,
        List.getD_eq_getElem?_getD]

theorem unfinishedPointers_take_cons (base : Nat) (q : List Nat) (e : String × DownloadTask)
    (es : List (String × DownloadTask)) :
    (q ++ (if e.2.IsFinished then [] else [base]).take (workQueueCap - q.length))
      ++ (unfinishedPointers (base + 1) es).take
          (workQueueCap - (q ++ (if e.2.IsFinished then [] else [base]).take
            (workQueueCap - q.length)).length)
      = q ++ (unfinishedPointers base (e :: es)).take (workQueueCap - q.length) := by
  simp only [unfinishedPointers]
  cases e.2.IsFinished with
  | true => simp
  | false =>
    by_cases hq : q.length < workQueueCap
    · have h1 : workQueueCap - q.length = (workQueueCap - q.length - 1) + 1 := by omega
      rw [h1]
      simp
      congr 1
    · have h1 : workQueueCap - q.length = 0 := by omega
      simp [h1]

/-- The world after the loop of `RestoreTasks` over `loaded`. -/
theorem RestoreTasks_fold (loaded : List (String × DownloadTask)) :
    ∀ w : World, loaded.foldl RestoreTasks_entry w =
      { w with
        heap := w.heap ++ restoredHeap w.clock loaded
        clock := restoredClock w.clock loaded
        tm := { tasks := registerAll w.heap.length w.tm.tasks loaded
                workQueue := w.tm.workQueue
                  ++ (unfinishedPointers w.heap.length loaded).take
                      (workQueueCap - w.tm.workQueue.length)
                ctxDone := w.tm.ctxDone } } := by
  induction loaded with
  | nil => intro w; simp [restoredHeap, restoredClock, registerAll, unfinishedPointers]
  | cons e es ih =>
    intro w
    rw [List.foldl_cons, ih, RestoreTasks_entry_eq]
    simp only [List.length_append, List.length_singleton, restoredHeap, restoredClock,
      registerAll, List.append_assoc, List.singleton_append]
    have hq := unfinishedPointers_take_cons w.heap.length w.tm.workQueue e es
    simp only [List.length_append, List.append_assoc] at hq
    rw [hq]

theorem restoredHeap_getElem? (loaded : List (String × DownloadTask)) :
    ∀ (now j : Nat) (e : String × DownloadTask), loaded[j]? = some e →
      ∃ c, (restoredHeap now loaded)[j]? = some (restoredTask e.2 c) := by
  induction loaded with
  | nil => intro now j e h; simp at h
  | cons a l ih =>
    intro now j e h
    cases j with
    | zero =>
      simp only [List.getElem?_cons_zero, Option.some.injEq] at h
      exact ⟨now, by simp [restoredHeap, h]⟩
    | succ j =>
      simp only [List.getElem?_cons_succ] at h
      obtain ⟨c, hc⟩ := ih (if a.2.IsFinished then now else now + 1) j e h
      exact ⟨c, by simpa [restoredHeap] using hc⟩

theorem registerAll_not_mem (loaded : List (String × DownloadTask)) :
    ∀ (base : Nat) (m : List (String × Nat)) (k : String), k ∉ loaded.map Prod.fst →
      mapGet (registerAll base m loaded) k = mapGet m k := by
  induction loaded with
  | nil => intro base m k _; rfl
  | cons a l ih =>
    intro base m k hk
    simp only [List.map_cons, List.mem_cons, not_or] at hk
    rw [registerAll, ih _ _ _ hk.2, mapGet_mapSet_ne _ _ _ _ hk.1]

theorem registerAll_get (loaded : List (String × DownloadTask)) :
    ∀ (base : Nat) (m : List (String × Nat)) (j : Nat) (e : String × DownloadTask),
      (loaded.map Prod.fst).Nodup → loaded[j]? = some e →
      mapGet (registerAll base m loaded) e.1 = some (base + j) := by
  induction loaded with
  | nil => intro base m j e _ h; simp at h
  | cons a l ih =>
    intro base m j e hnd h
    simp only [List.map_cons, List.nodup_cons] at hnd
    cases j with
    | zero =>
      simp only [List.getElem?_cons_zero, Option.some.injEq] at h
      subst h
      rw [registerAll, registerAll_not_mem _ _ _ _ hnd.1, mapGet_mapSet]
      rfl
    | succ j =>
      simp only [List.getElem?_cons_succ] at h
      rw [registerAll, ih _ _ j e hnd.2 h]
      congr 1
      omega

theorem unfinishedPointers_mem (loaded : List (String × DownloadTask)) :
    ∀ (base p : Nat), p ∈ unfinishedPointers base loaded ↔
      ∃ j e, loaded[j]? = some e ∧ e.2.IsFinished = false ∧ p = base + j := by
  induction loaded with
  | nil => intro base p; simp [unfinishedPointers]
  | cons a l ih =>
    intro base p
    have hstep : (∃ j e, (a :: l)[j]? = some e ∧ e.2.IsFinished = false ∧ p = base + j)
        ↔ (a.2.IsFinished = false ∧ p = base)
          ∨ ∃ j e, l[j]? = some e ∧ e.2.IsFinished = false ∧ p = base + 1 + j := by
      constructor
      · rintro ⟨j, e, hj, hf, hp⟩
        cases j with
        | zero =>
          simp only [List.getElem?_cons_zero, Option.some.injEq] at hj
          subst hj
          exact Or.inl ⟨hf, by simpa using hp⟩
        | succ j =>
          simp only [List.getElem?_cons_succ] at hj
          exact Or.inr ⟨j, e, hj, hf, by omega⟩
      · rintro (⟨hf, hp⟩ | ⟨j, e, hj, hf, hp⟩)
        · exact ⟨0, a, by simp, hf, by simpa using hp⟩
        · exact ⟨j + 1, e, by simpa using hj, hf, by omega⟩
    rw [hstep, unfinishedPointers]
    cases hfin : a.2.IsFinished with
    | true => simp [ih]
    | false => simp [ih]

theorem unfinishedPointers_nodup (loaded : List (String × DownloadTask)) :
    ∀ base : Nat, (unfinishedPointers base loaded).Nodup := by
  induction loaded with
  | nil => intro base; simp [unfinishedPointers]
  | cons a l ih =>
    intro base
    rw [unfinishedPointers]
    split
    · exact ih _
    · rw [List.nodup_cons]
      refine ⟨?_, ih _⟩
      intro hmem
      obtain ⟨j, e, _, _, hp⟩ := (unfinishedPointers_mem l (base + 1) base).1 hmem
      omega

theorem unfinishedPointers_length (loaded : List (String × DownloadTask)) :
    ∀ base : Nat, (unfinishedPointers base loaded).length
      = loaded.countP (fun e => !e.2.IsFinished) := by
  induction loaded with
  | nil => intro base; rfl
  | cons a l ih =>
    intro base
    rw [unfinishedPointers, List.countP_cons]
    cases a.2.IsFinished with
    | true => simp [ih]
    | false => simp [ih]

theorem RestoreTasks_loop_nil (loaded : List (String × DownloadTask)) :
    ∀ w : World, RestoreTasks_loop [] loaded w = loaded.foldl RestoreTasks_entry w := by
  induction loaded with
  | nil => intro w; rfl
  | cons e es ih => intro w; simp [RestoreTasks_loop, receiveAll, ih]

theorem RestoreTasks_loaded (E : Env) (w : World) (loaded : List (String × DownloadTask))
    (hload : E.storage.GetAllTasks w.saved = .ok loaded) :
    RestoreTasks E [] w = (none,
      { w with
        heap := w.heap ++ restoredHeap w.clock loaded
        clock := restoredClock w.clock loaded
        tm := { tasks := registerAll w.heap.length w.tm.tasks loaded
                workQueue := w.tm.workQueue
                  ++ (unfinishedPointers w.heap.length loaded).take
                      (workQueueCap - w.tm.workQueue.length)
                ctxDone := w.tm.ctxDone } }) := by
  simp only [RestoreTasks, hload, RestoreTasks_loop_nil, RestoreTasks_fold]

theorem restored_deref (w w' : World) (loaded : List (String × DownloadTask)) (now j : Nat)
    (e : String × DownloadTask) (hh : w'.heap = w.heap ++ restoredHeap now loaded)
    (he : loaded[j]? = some e) :
    ∃ c, w'.deref (w.heap.length + j) = restoredTask e.2 c := by
  obtain ⟨c, hc⟩ := restoredHeap_getElem? loaded now j e he
  refine ⟨c, ?_⟩
  simp [World.deref, hh, List.getD_eq_getElem?_getD, List.getElem?_append_right, hc]

/-- A receive leaves the heap, the clock and the registry as they are, and only takes
tasks off the queue. -/
theorem workerReceive_frame (w w' : World) (i : Nat) (hs : workerReceive w i = some w') :
    w'.heap = w.heap ∧ w'.clock = w.clock ∧ w'.tm.tasks = w.tm.tasks
    ∧ ∀ p ∈ w'.tm.workQueue, p ∈ w.tm.workQueue := by
  unfold workerReceive at hs
  split at hs
  · rename_i p q _ hqueue
    have hw := (Option.some.inj hs).symm
    refine ⟨by rw [hw]; rfl, by rw [hw]; rfl, by rw [hw]; rfl, ?_⟩
    intro r hr
    have hq' : w'.tm.workQueue = q := by rw [hw]; rfl
    rw [hq'] at hr
    rw [hqueue]
    exact List.mem_cons_of_mem _ hr
  · exact Option.noConfusion hs

theorem receiveAll_frame (is : List Nat) :
    ∀ w : World, (receiveAll w is).heap = w.heap ∧ (receiveAll w is).clock = w.clock
      ∧ (receiveAll w is).tm.tasks = w.tm.tasks
      ∧ ∀ p ∈ (receiveAll w is).tm.workQueue, p ∈ w.tm.workQueue := by
  induction is with
  | nil => intro w; exact ⟨rfl, rfl, rfl, fun _ h => h⟩
  | cons i is ih =>
    intro w
    simp only [receiveAll, List.foldl_cons]
    cases hs : workerReceive w i with
    | none => exact ih w
    | some w1 =>
      have h1 := workerReceive_frame w w1 i hs
      have h2 := ih w1
      simp only [receiveAll] at h2
      refine ⟨by rw [← h1.1]; exact h2.1, by rw [← h1.2.1]; exact h2.2.1,
        by rw [← h1.2.2.1]; exact h2.2.2.1, fun p hp => h1.2.2.2 p (h2.2.2.2 p hp)⟩

/-- The loop of `RestoreTasks`, whatever the workers receive meanwhile: the heap and the
registry are those of the loop left alone, and the queue holds only tasks that were queued
before or unfinished loaded tasks. -/
theorem RestoreTasks_loop_frame (loaded : List (String × DownloadTask)) :
    ∀ (rs : List (List Nat)) (w : World),
      (RestoreTasks_loop rs loaded w).heap = w.heap ++ restoredHeap w.clock loaded
      ∧ (RestoreTasks_loop rs loaded w).clock = restoredClock w.clock loaded
      ∧ (RestoreTasks_loop rs loaded w).tm.tasks
          = registerAll w.heap.length w.tm.tasks loaded
      ∧ ∀ p ∈ (RestoreTasks_loop rs loaded w).tm.workQueue,
          p ∈ w.tm.workQueue ∨ p ∈ unfinishedPointers w.heap.length loaded := by
  induction loaded with
  | nil =>
    intro rs w
    exact ⟨by simp [RestoreTasks_loop, restoredHeap], rfl, rfl, fun p hp => Or.inl hp⟩
  | cons e es ih =>
    intro rs w
    have h1 := receiveAll_frame (rs.headD []) w
    have h2 := RestoreTasks_entry_eq (receiveAll w (rs.headD [])) e
    have h3 := ih rs.tail (RestoreTasks_entry (receiveAll w (rs.headD [])) e)
    rw [RestoreTasks_loop]
    have hheap : (RestoreTasks_entry (receiveAll w (rs.headD [])) e).heap
        = w.heap ++ [restoredTask e.2 w.clock] := by rw [h2, h1.1, h1.2.1]
    have hclock : (RestoreTasks_entry (receiveAll w (rs.headD [])) e).clock
        = if e.2.IsFinished then w.clock else w.clock + 1 := by rw [h2, h1.2.1]
    have htasks : (RestoreTasks_entry (receiveAll w (rs.headD [])) e).tm.tasks
        = mapSet w.tm.tasks e.1 w.heap.length := by rw [h2, h1.1, h1.2.2.1]
    have hqueue : ∀ p ∈ (RestoreTasks_entry (receiveAll w (rs.headD [])) e).tm.workQueue,
        p ∈ w.tm.workQueue ∨ (e.2.IsFinished = false ∧ p = w.heap.length) := by
      intro p hp
      rw [h2] at hp
      simp only [List.mem_append] at hp
      rcases hp with hp | hp
      · exact Or.inl (h1.2.2.2 p hp)
      · have hp' := List.mem_of_mem_take hp
        cases hf : e.2.IsFinished with
        | true => simp [hf] at hp'
        | false =>
          simp only [hf, Bool.false_eq_true, if_false, List.mem_singleton] at hp'
          exact Or.inr ⟨rfl, by rw [hp', h1.1]⟩
    refine ⟨?_, ?_, ?_, ?_⟩
    · rw [h3.1, hheap, hclock]
      simp [restoredHeap]
    · rw [h3.2.1, hclock]
      rfl
    · rw [h3.2.2.1, hheap, htasks]
      simp [registerAll]
    · intro p hp
      rcases h3.2.2.2 p hp with hq | hq
      · rcases hqueue p hq with hq' | ⟨hf, hq'⟩
        · exact Or.inl hq'
        · right
          rw [unfinishedPointers, hf, hq']
          simp
      · right
        rw [hheap] at hq
        simp only [List.length_append, List.length_singleton] at hq
        rw [unfinishedPointers]
        split
        · exact hq
        · exact List.mem_cons_of_mem _ hq

/-- When no worker receives, the loop of `RestoreTasks` is the loop left alone. -/
theorem RestoreTasks_loop_quiet (loaded : List (String × DownloadTask)) :
    ∀ (rs : List (List Nat)) (w : World), (∀ r ∈ rs, r = []) →
      RestoreTasks_loop rs loaded w = loaded.foldl RestoreTasks_entry w := by
  induction loaded with
  | nil => intro rs w _; rfl
  | cons e es ih =>
    intro rs w hrs
    have hhead : rs.headD [] = [] := by
      cases rs with
      | nil => rfl
      | cons r rs' => exact hrs r (List.mem_cons_self _ _)
    have htail : ∀ r ∈ rs.tail, r = [] := fun r hr => hrs r (List.mem_of_mem_tail hr)
    rw [RestoreTasks_loop, hhead, ih rs.tail _ htail]
    rfl

/-- C8, as amended. When `GetAllTasks` succeeds (the loaded map has one entry per key, and
the queue holds pointers to allocated tasks), `RestoreTasks` returns no error, and
afterwards, whatever the workers received from the queue meanwhile: every loaded task is
registered under its key; a loaded task that was Completed or Failed is unchanged and is
not in the queue; every other loaded task, Pending or Processing, has status Pending and is
otherwise unchanged. When moreover no worker receives from the queue while `RestoreTasks`
runs, the queue is the old queue followed by the first unfinished loaded tasks that fit,
their number being the minimum of the free capacity and the number of unfinished loaded
tasks, and those that did not fit are registered with status Pending and are not in the
queue. -/
theorem RestoreTasks_ok (E : Env) (rs : List (List Nat)) (w : World)
    (loaded : List (String × DownloadTask))
    (hload : E.storage.GetAllTasks w.saved = .ok loaded)
    (hkeys : (loaded.map Prod.fst).Nodup)
    (hwf : ∀ q ∈ w.tm.workQueue, q < w.heap.length) :
    (RestoreTasks E rs w).1 = none
    ∧ (∀ j e, loaded[j]? = some e →
        mapGet (RestoreTasks E rs w).2.tm.tasks e.1 = some (w.heap.length + j)
        ∧ (e.2.IsFinished = true →
            (RestoreTasks E rs w).2.deref (w.heap.length + j) = e.2
            ∧ w.heap.length + j ∉ (RestoreTasks E rs w).2.tm.workQueue)
        ∧ (e.2.IsFinished = false →
            ((RestoreTasks E rs w).2.deref (w.heap.length + j)).Status = StatusPending
            ∧ ∃ now, (RestoreTasks E rs w).2.deref (w.heap.length + j)
                = e.2.UpdateStatus StatusPending now))
    ∧ ((∀ r ∈ rs, r = []) →
        (RestoreTasks E rs w).2.tm.workQueue
          = w.tm.workQueue ++ (unfinishedPointers w.heap.length loaded).take
              (workQueueCap - w.tm.workQueue.length)
        ∧ ((unfinishedPointers w.heap.length loaded).take
            (workQueueCap - w.tm.workQueue.length)).length
          = min (workQueueCap - w.tm.workQueue.length)
              (loaded.countP (fun e => !e.2.IsFinished))
        ∧ (∀ p ∈ (unfinishedPointers w.heap.length loaded).drop
              (workQueueCap - w.tm.workQueue.length),
            p ∉ (RestoreTasks E rs w).2.tm.workQueue
            ∧ ((RestoreTasks E rs w).2.deref p).Status = StatusPending
            ∧ ∃ j e, loaded[j]? = some e ∧ p = w.heap.length + j
                ∧ mapGet (RestoreTasks E rs w).2.tm.tasks e.1 = some p)) := by
  have hR : RestoreTasks E rs w = (none, RestoreTasks_loop rs loaded w) := by
    simp only [RestoreTasks, hload]
  have hF := RestoreTasks_loop_frame loaded rs w
  have hh : (RestoreTasks E rs w).2.heap = w.heap ++ restoredHeap w.clock loaded := by
    rw [hR]; exact hF.1
  have ht : (RestoreTasks E rs w).2.tm.tasks = registerAll w.heap.length w.tm.tasks loaded := by
    rw [hR]; exact hF.2.2.1
  have hqm : ∀ p ∈ (RestoreTasks E rs w).2.tm.workQueue,
      p ∈ w.tm.workQueue ∨ p ∈ unfinishedPointers w.heap.length loaded := by
    rw [hR]; exact hF.2.2.2
  have hpend : ∀ j e, loaded[j]? = some e → e.2.IsFinished = false →
      ∃ now, (RestoreTasks E rs w).2.deref (w.heap.length + j)
        = e.2.UpdateStatus StatusPending now := by
    intro j e he hf
    obtain ⟨c, hc⟩ := restored_deref w _ loaded _ j e hh he
    exact ⟨c, by rw [hc, restoredTask, hf]; rfl⟩
  refine ⟨by rw [hR], ?_, ?_⟩
  · intro j e he
    refine ⟨by rw [ht]; exact registerAll_get loaded _ _ j e hkeys he, ?_, ?_⟩
    · intro hf
      obtain ⟨c, hc⟩ := restored_deref w _ loaded _ j e hh he
      refine ⟨by rw [hc, restoredTask, hf]; rfl, ?_⟩
      intro hm
      rcases hqm _ hm with hm | hm
      · exact absurd (hwf _ hm) (by omega)
      · obtain ⟨j', e', he', hf', hp⟩ := (unfinishedPointers_mem loaded _ _).1 hm
        have hjj : j' = j := by omega
        subst hjj
        rw [he] at he'
        rw [Option.some.inj he', hf'] at hf
        exact Bool.noConfusion hf
    · intro hf
      obtain ⟨now, hn⟩ := hpend j e he hf
      exact ⟨by rw [hn]; rfl, now, hn⟩
  · intro hrs
    have hq : (RestoreTasks E rs w).2.tm.workQueue
        = w.tm.workQueue ++ (unfinishedPointers w.heap.length loaded).take
            (workQueueCap - w.tm.workQueue.length) := by
      rw [hR, RestoreTasks_loop_quiet loaded rs w hrs, RestoreTasks_fold]
    refine ⟨hq, by rw [List.length_take, unfinishedPointers_length], ?_⟩
    intro p hp
    obtain ⟨j, e, he, hf, hpj⟩ :=
      (unfinishedPointers_mem loaded _ _).1 (List.mem_of_mem_drop hp)
    refine ⟨?_, ?_, j, e, he, hpj, ?_⟩
    · rw [hq, List.mem_append]
      rintro (hm | hm)
      · exact absurd (hwf _ hm) (by omega)
      · have hnd := unfinishedPointers_nodup loaded w.heap.length
        rw [← List.take_append_drop (workQueueCap - w.tm.workQueue.length)
          (unfinishedPointers w.heap.length loaded)] at hnd
        exact (List.disjoint_of_nodup_append hnd) hm hp
    · obtain ⟨now, hn⟩ := hpend j e he hf
      rw [hpj, hn]; rfl
    · rw [ht, hpj]; exact registerAll_get loaded _ _ j e hkeys he

/-- C8 as stated fails: the lock `RestoreTasks` holds does not keep a worker from
receiving. With one free slot and two unfinished loaded tasks, if the worker receives a
task after the first of them is queued, the second is queued too: two tasks are appended,
not the minimum of the free capacity and the number of unfinished loaded tasks. -/
theorem RestoreTasks_ok_counterexample :
    min (workQueueCap - nearlyFullWorld.tm.workQueue.length)
        (loadedExample.countP (fun e => !e.2.IsFinished)) = 1
    ∧ (RestoreTasks loadedEnv [[], [], [0]] nearlyFullWorld).1 = none
    ∧ (RestoreTasks loadedEnv [[], [], [0]] nearlyFullWorld).2.tm.workQueue.filter
        (fun p => decide (p ∉ nearlyFullWorld.tm.workQueue)) = [100, 101] := by
  set_option maxRecDepth 100000 in decide

/-- C8, as amended, on a queue with one free slot and three loaded tasks, two of them
unfinished. When no worker receives, the first unfinished one is queued, the second is
registered as Pending and not queued. When the worker receives before the last entry is
visited, the loaded tasks are still registered, the Completed one unchanged and not in the
queue, the other two Pending. -/
theorem RestoreTasks_ok_witness :
    (loadedEnv.storage.GetAllTasks nearlyFullWorld.saved = .ok loadedExample
      ∧ (loadedExample.map Prod.fst).Nodup
      ∧ ∀ q ∈ nearlyFullWorld.tm.workQueue, q < nearlyFullWorld.heap.length)
    ∧ (RestoreTasks loadedEnv [] nearlyFullWorld).1 = none
    ∧ (RestoreTasks loadedEnv [] nearlyFullWorld).2.tm.workQueue
        = nearlyFullWorld.tm.workQueue ++ [100]
    ∧ ((RestoreTasks loadedEnv [] nearlyFullWorld).2.deref 101).Status = StatusPending
    ∧ 101 ∉ (RestoreTasks loadedEnv [] nearlyFullWorld).2.tm.workQueue
    ∧ (RestoreTasks loadedEnv [[], [], [0]] nearlyFullWorld).1 = none
    ∧ mapGet (RestoreTasks loadedEnv [[], [], [0]] nearlyFullWorld).2.tm.tasks "a" = some 99
    ∧ 99 ∉ (RestoreTasks loadedEnv [[], [], [0]] nearlyFullWorld).2.tm.workQueue
    ∧ ((RestoreTasks loadedEnv [[], [], [0]] nearlyFullWorld).2.deref 101).Status
        = StatusPending := by
  have hwf : ∀ q ∈ nearlyFullWorld.tm.workQueue, q < nearlyFullWorld.heap.length := by
    set_option maxRecDepth 100000 in decide
  have hlen : nearlyFullWorld.heap.length = 99 := by
    set_option maxRecDepth 100000 in decide
  have hql : nearlyFullWorld.tm.workQueue.length = 99 := by
    set_option maxRecDepth 100000 in decide
  have h := RestoreTasks_ok loadedEnv [] nearlyFullWorld loadedExample rfl (by decide) hwf
  have g := RestoreTasks_ok loadedEnv [[], [], [0]] nearlyFullWorld loadedExample rfl
    (by decide) hwf
  have hu : (unfinishedPointers nearlyFullWorld.heap.length loadedExample) = [100, 101] := by
    rw [hlen]; decide
  have hc := h.2.2 (by simp)
  have h5 := hc.2.2 101 (by rw [hu, hql]; decide)
  have ga := g.2.1 0 _ (by rfl : loadedExample[0]? = some ("a", _))
  have gc := g.2.1 2 _ (by rfl : loadedExample[2]? = some ("c", _))
  rw [hlen] at ga gc
  refine ⟨⟨rfl, by decide, hwf⟩, h.1, ?_, h5.2.1, h5.1, g.1, ga.1, (ga.2.1 (by decide)).2,
    (gc.2.2 (by decide)).1⟩
  rw [hc.1, hu, hql]
  rfl

/-! ## Ownership of tasks is an invariant -/

theorem deref_append_left (w w' : World) (ts : List DownloadTask) (p : Nat)
    (hh : w'.heap = w.heap ++ ts) (hp : p < w.heap.length) : w'.deref p = w.deref p := by
  simp [World.deref, hh, List.getD_eq_getElem?_getD, List.getElem?_append_left hp]

/-- Steps that only allocate: new objects at the end of the heap, new unfinished tasks at
the end of the queue, workers untouched. -/
theorem Owned.extend {w w' : World} (h : Owned w) (ts : List DownloadTask) (ps : List Nat)
    (hheap : w'.heap = w.heap ++ ts) (hworkers : w'.workers = w.workers)
    (hqueue : w'.tm.workQueue = w.tm.workQueue ++ ps) (hps : ps.Nodup)
    (hnew : ∀ p ∈ ps, w.heap.length ≤ p ∧ p < w'.heap.length
      ∧ (w'.deref p).IsFinished = false)
    (hreg : ∀ id p, mapGet w'.tm.tasks id = some p → p < w'.heap.length) : Owned w' := by
  have hlen : w.heap.length ≤ w'.heap.length := by rw [hheap]; simp
  refine ⟨?_, ?_, ?_, ?_, hreg⟩
  · rw [hqueue, List.nodup_append]
    refine ⟨h.queue_nodup, hps, ?_⟩
    intro p hp1 hp2
    have := (h.queue_ok p hp1).1
    have := (hnew p hp2).1
    omega
  · intro p hp
    rw [hqueue, List.mem_append] at hp
    rcases hp with hp | hp
    · have h1 := h.queue_ok p hp
      exact ⟨by omega, by rw [deref_append_left w w' ts p hheap h1.1]; exact h1.2⟩
    · exact (hnew p hp).2
  · intro i k p hk ht
    rw [hworkers] at hk
    have h1 := h.worker_ok i k p hk ht
    refine ⟨by omega, by rw [deref_append_left w w' ts p hheap h1.1]; exact h1.2.1, ?_⟩
    rw [hqueue, List.mem_append]
    rintro (hm | hm)
    · exact h1.2.2 hm
    · have := (hnew p hm).1
      omega
  · intro i j k k' p hk hk'
    rw [hworkers] at hk hk'
    exact h.worker_distinct i j k k' p hk hk'

/-- A step of worker `i` that keeps or drops its task and touches no other task. -/
theorem Owned.worker {w w' : World} (h : Owned w) (i : Nat) (k k' : Worker)
    (hk : w.workers[i]? = some k) (hworkers : w'.workers = w.workers.set i k')
    (hqueue : w'.tm.workQueue = w.tm.workQueue) (htasks : w'.tm.tasks = w.tm.tasks)
    (hlen : w'.heap.length = w.heap.length)
    (hframe : ∀ q, k.task ≠ some q → w'.deref q = w.deref q)
    (hkeep : ∀ p, k'.task = some p → k.task = some p ∧ (w'.deref p).IsFinished = false) :
    Owned w' := by
  have hi : i < w.workers.length := by
    rcases Nat.lt_or_ge i w.workers.length with h1 | h1
    · exact h1
    · rw [List.getElem?_eq_none h1] at hk; exact Option.noConfusion hk
  have hget : ∀ j kj, w'.workers[j]? = some kj →
      (j = i ∧ kj = k') ∨ (j ≠ i ∧ w.workers[j]? = some kj) := by
    intro j kj hj
    rw [hworkers, List.getElem?_set] at hj
    by_cases hij : i = j
    · simp only [hij, if_true] at hj
      subst hij
      simp only [hi, if_true, Option.some.injEq] at hj
      exact Or.inl ⟨rfl, hj.symm⟩
    · simp only [hij, if_false] at hj
      exact Or.inr ⟨fun h' => hij h'.symm, hj⟩
  refine ⟨by rw [hqueue]; exact h.queue_nodup, ?_, ?_, ?_, ?_⟩
  · intro p hp
    rw [hqueue] at hp
    have h1 := h.queue_ok p hp
    have h2 : k.task ≠ some p := fun ht => (h.worker_ok i k p hk ht).2.2 hp
    exact ⟨by omega, by rw [hframe p h2]; exact h1.2⟩
  · intro j kj p hj ht
    rcases hget j kj hj with ⟨_, hkj⟩ | ⟨hji, hj'⟩
    · subst hkj
      have h1 := hkeep p ht
      have h2 := h.worker_ok i k p hk h1.1
      exact ⟨by omega, h1.2, by rw [hqueue]; exact h2.2.2⟩
    · have h1 := h.worker_ok j kj p hj' ht
      have h2 : k.task ≠ some p := fun hkt => hji (h.worker_distinct j i kj k p hj' hk ht hkt)
      exact ⟨by omega, by rw [hframe p h2]; exact h1.2.1, by rw [hqueue]; exact h1.2.2⟩
  · intro j1 j2 k1 k2 p h1 h2 ht1 ht2
    rcases hget j1 k1 h1 with ⟨e1, hk1⟩ | ⟨n1, o1⟩ <;>
      rcases hget j2 k2 h2 with ⟨e2, hk2⟩ | ⟨n2, o2⟩
    · rw [e1, e2]
    · subst hk1
      rw [e1]
      exact h.worker_distinct i j2 k k2 p hk o2 (hkeep p ht1).1 ht2
    · subst hk2
      rw [e2]
      exact h.worker_distinct j1 i k1 k p o1 hk ht1 (hkeep p ht2).1
    · exact h.worker_distinct j1 j2 k1 k2 p o1 o2 ht1 ht2
  · intro id p hp
    rw [htasks] at hp
    have := h.registry_ok id p hp
    omega

theorem Owned_init (n : Nat) : Owned (NewTaskManager n) := by
  have hidle : ∀ (i : Nat) (k : Worker), (NewTaskManager n).workers[i]? = some k →
      k.task = none := by
    intro i k hk
    have hm := List.getElem?_mem hk
    simp only [NewTaskManager, List.mem_replicate] at hm
    rw [hm.2]; rfl
  refine ⟨by simp [NewTaskManager], by simp [NewTaskManager], ?_, ?_, by simp [NewTaskManager, mapGet]⟩
  · intro i k p hk ht
    rw [hidle i k hk] at ht
    exact Option.noConfusion ht
  · intro i j k k' p hk _ ht
    rw [hidle i k hk] at ht
    exact Option.noConfusion ht

theorem mapGet_mapSet_eq (m : List (String × Nat)) (k k' : String) (v : Nat) :
    mapGet (mapSet m k v) k' = if k' = k then some v else mapGet m k' := by
  by_cases h : k' = k
  · rw [if_pos h, h, mapGet_mapSet]
  · rw [if_neg h, mapGet_mapSet_ne _ _ _ _ h]

theorem pendingTask_unfinished (urls : List String) (id : String) (now : Nat) :
    (pendingTask urls id now).IsFinished = false := by
  simp only [DownloadTask.IsFinished, pendingTask]
  decide

/-- The shape of the world after `CreateTask`: nothing changed, or one Pending task was
allocated and registered under `id`, and possibly sent on the queue. -/
theorem CreateTask_shape (E : Env) (w : World) (urls : List String) (id : String) :
    (CreateTask E w urls id).2 = w
    ∨ ((CreateTask E w urls id).2.heap = w.heap ++ [pendingTask urls id w.clock]
      ∧ (CreateTask E w urls id).2.workers = w.workers
      ∧ ((CreateTask E w urls id).2.tm.workQueue = w.tm.workQueue ++ []
        ∨ (CreateTask E w urls id).2.tm.workQueue = w.tm.workQueue ++ [w.heap.length])
      ∧ (CreateTask E w urls id).2.tm.tasks = mapSet w.tm.tasks id w.heap.length) := by
  cases hval : validateURLs E.ParseRequestURI urls with
  | some err => left; simp [CreateTask, NewDownloadTask, hval]
  | none =>
    right
    obtain ⟨hne, hv⟩ := (validateURLs_eq_none _ _).1 hval
    rw [CreateTask_valid E w urls id hne hv]
    cases E.storage.SaveTask w.saved (pendingTask urls id w.clock) with
    | some err => exact ⟨rfl, rfl, Or.inl (by simp [CreateTask_register]), rfl⟩
    | none =>
      by_cases hq : w.tm.workQueue.length < workQueueCap
      · rw [if_pos hq]
        exact ⟨rfl, rfl, Or.inr rfl, rfl⟩
      · rw [if_neg hq]
        exact ⟨rfl, rfl, Or.inl (by simp [CreateTask_register]), rfl⟩

theorem CreateTask_owned (E : Env) (w : World) (urls : List String) (id : String)
    (h : Owned w) :
    Owned (CreateTask E w urls id).2
    ∧ w.heap.length ≤ (CreateTask E w urls id).2.heap.length
    ∧ ∀ p, p < w.heap.length → (CreateTask E w urls id).2.deref p = w.deref p := by
  rcases CreateTask_shape E w urls id with hw | ⟨hh, hwk, hq, ht⟩
  · rw [hw]; exact ⟨h, le_refl _, fun _ _ => rfl⟩
  · have hlen : (CreateTask E w urls id).2.heap.length = w.heap.length + 1 := by
      rw [hh]; simp
    have hreg : ∀ (k : String) (p : Nat),
        mapGet (CreateTask E w urls id).2.tm.tasks k = some p →
        p < (CreateTask E w urls id).2.heap.length := by
      intro k p hp
      rw [ht, mapGet_mapSet_eq] at hp
      split at hp
      · have := Option.some.inj hp; omega
      · have := h.registry_ok k p hp; omega
    refine ⟨?_, by omega, fun p hp => deref_append_left w _ _ p hh hp⟩
    rcases hq with hq | hq
    · exact h.extend _ [] hh hwk hq List.nodup_nil (by simp) hreg
    · refine h.extend _ [w.heap.length] hh hwk hq (List.nodup_singleton _) ?_ hreg
      intro p hp
      rw [List.mem_singleton] at hp
      subst hp
      refine ⟨le_refl _, by omega, ?_⟩
      rw [deref_new w _ _ hh]
      exact pendingTask_unfinished _ _ _

theorem restoredHeap_length (loaded : List (String × DownloadTask)) :
    ∀ now : Nat, (restoredHeap now loaded).length = loaded.length := by
  induction loaded with
  | nil => intro now; rfl
  | cons e es ih => intro now; simp [restoredHeap, ih]

theorem registerAll_bound (loaded : List (String × DownloadTask)) :
    ∀ (base : Nat) (m : List (String × Nat)) (k : String) (p : Nat),
      mapGet (registerAll base m loaded) k = some p →
      p < base + loaded.length ∨ mapGet m k = some p := by
  induction loaded with
  | nil => intro base m k p h; exact Or.inr h
  | cons e es ih =>
    intro base m k p h
    rcases ih (base + 1) _ k p h with h1 | h1
    · left; simp only [List.length_cons]; omega
    · rw [mapGet_mapSet_eq] at h1
      split at h1
      · left
        have := Option.some.inj h1
        simp only [List.length_cons]; omega
      · exact Or.inr h1

theorem restoreFold_owned (loaded : List (String × DownloadTask)) (w : World) (h : Owned w) :
    Owned (loaded.foldl RestoreTasks_entry w)
    ∧ w.heap.length ≤ (loaded.foldl RestoreTasks_entry w).heap.length
    ∧ ∀ p, p < w.heap.length → (loaded.foldl RestoreTasks_entry w).deref p = w.deref p := by
  have hR := RestoreTasks_fold loaded w
  have hh : (loaded.foldl RestoreTasks_entry w).heap = w.heap ++ restoredHeap w.clock loaded := by
    rw [hR]
  have hlen : (loaded.foldl RestoreTasks_entry w).heap.length
      = w.heap.length + loaded.length := by
    rw [hh, List.length_append, restoredHeap_length]
  refine ⟨?_, by omega, fun p hp => deref_append_left w _ _ p hh hp⟩
  refine h.extend _ _ hh (by rw [hR]) (by rw [hR])
    ((unfinishedPointers_nodup loaded _).sublist (List.take_sublist _ _)) ?_ ?_
  · intro p hp
    obtain ⟨j, e, he, hf, hpj⟩ :=
      (unfinishedPointers_mem loaded _ _).1 (List.mem_of_mem_take hp)
    have hj : j < loaded.length := by
      rcases Nat.lt_or_ge j loaded.length with h1 | h1
      · exact h1
      · rw [List.getElem?_eq_none h1] at he; exact Option.noConfusion he
    obtain ⟨c, hc⟩ := restored_deref w _ loaded _ j e hh he
    refine ⟨by omega, by omega, ?_⟩
    rw [hpj, hc, restoredTask, hf]
    simp only [DownloadTask.IsFinished, DownloadTask.UpdateStatus, Bool.false_eq_true,
      if_false]
    decide
  · intro k p hp
    have ht : (loaded.foldl RestoreTasks_entry w).tm.tasks
        = registerAll w.heap.length w.tm.tasks loaded := by rw [hR]
    rw [ht] at hp
    rcases registerAll_bound loaded _ _ k p hp with h1 | h1
    · omega
    · have := h.registry_ok k p h1; omega

theorem setWorker_get (w : World) (i j : Nat) (k kj : Worker) (hi : w.workers[i]? = some k)
    (k' : Worker) (hj : (w.setWorker i k').workers[j]? = some kj) :
    (j = i ∧ kj = k') ∨ (j ≠ i ∧ w.workers[j]? = some kj) := by
  have hlt : i < w.workers.length := by
    rcases Nat.lt_or_ge i w.workers.length with h1 | h1
    · exact h1
    · rw [List.getElem?_eq_none h1] at hi; exact Option.noConfusion hi
  simp only [World.setWorker, List.getElem?_set] at hj
  by_cases hij : i = j
  · subst hij
    simp only [if_true, hlt, Option.some.injEq] at hj
    exact Or.inl ⟨rfl, hj.symm⟩
  · simp only [hij, if_false] at hj
    exact Or.inr ⟨fun h' => hij h'.symm, hj⟩

theorem workerReceive_owned (w w' : World) (i : Nat) (h : Owned w)
    (hs : workerReceive w i = some w') :
    Owned w' ∧ w'.heap = w.heap ∧ w'.tm.tasks = w.tm.tasks := by
  unfold workerReceive at hs
  split at hs
  · rename_i p q hidle hqueue
    have hw := (Option.some.inj hs).symm
    have hheap : w'.heap = w.heap := by rw [hw]; rfl
    have hq' : w'.tm.workQueue = q := by rw [hw]; rfl
    have hd : ∀ r, w'.deref r = w.deref r := fun r => by rw [hw]; rfl
    have hnd := h.queue_nodup
    rw [hqueue, List.nodup_cons] at hnd
    have hget : ∀ j kj, w'.workers[j]? = some kj →
        (j = i ∧ kj = .dequeued p) ∨ (j ≠ i ∧ w.workers[j]? = some kj) := by
      intro j kj hj
      rw [hw] at hj
      exact setWorker_get { w with tm := { w.tm with workQueue := q } } i j _ kj hidle _ hj
    have hp := h.queue_ok p (by rw [hqueue]; exact List.mem_cons_self _ _)
    have hother : ∀ j kj r, j ≠ i → w.workers[j]? = some kj → kj.task = some r → r ≠ p := by
      intro j kj r _ hj ht hrp
      have := (h.worker_ok j kj r hj ht).2.2
      rw [hqueue, hrp] at this
      exact this (List.mem_cons_self _ _)
    refine ⟨⟨by rw [hq']; exact hnd.2, ?_, ?_, ?_, ?_⟩, hheap, by rw [hw]; rfl⟩
    · intro r hr
      rw [hq'] at hr
      rw [hheap, hd]
      exact h.queue_ok r (by rw [hqueue]; exact List.mem_cons_of_mem _ hr)
    · intro j kj r hj ht
      rw [hheap, hd, hq']
      rcases hget j kj hj with ⟨_, hkj⟩ | ⟨hji, hj'⟩
      · rw [hkj] at ht
        have hr : p = r := Option.some.inj ht
        rw [← hr]
        exact ⟨hp.1, hp.2, hnd.1⟩
      · have h1 := h.worker_ok j kj r hj' ht
        refine ⟨h1.1, h1.2.1, fun hm => h1.2.2 ?_⟩
        rw [hqueue]; exact List.mem_cons_of_mem _ hm
    · intro j1 j2 k1 k2 r h1 h2 ht1 ht2
      rcases hget j1 k1 h1 with ⟨e1, hk1⟩ | ⟨n1, o1⟩ <;>
        rcases hget j2 k2 h2 with ⟨e2, hk2⟩ | ⟨n2, o2⟩
      · rw [e1, e2]
      · rw [hk1] at ht1
        exact absurd (Option.some.inj ht1).symm (hother j2 k2 r n2 o2 ht2)
      · rw [hk2] at ht2
        exact absurd (Option.some.inj ht2).symm (hother j1 k1 r n1 o1 ht1)
      · exact h.worker_distinct j1 j2 k1 k2 r o1 o2 ht1 ht2
    · intro id r hr
      rw [hheap]
      rw [hw] at hr
      exact h.registry_ok id r hr
  · exact Option.noConfusion hs

theorem workerStop_owned (w w' : World) (i : Nat) (h : Owned w)
    (hs : workerStop w i = some w') :
    Owned w' ∧ w'.heap = w.heap ∧ w'.tm.tasks = w.tm.tasks := by
  unfold workerStop at hs
  split at hs
  · rename_i hidle
    split at hs
    · have hw := (Option.some.inj hs).symm
      refine ⟨?_, by rw [hw]; rfl, by rw [hw]; rfl⟩
      exact h.worker i .idle .stopped hidle (by rw [hw]; rfl) (by rw [hw]; rfl)
        (by rw [hw]; rfl) (by rw [hw]; rfl) (fun q _ => by rw [hw]; rfl)
        (fun p hp => Option.noConfusion hp)
    · exact Option.noConfusion hs
  · exact Option.noConfusion hs

theorem receiveAll_owned (is : List Nat) :
    ∀ w : World, Owned w → Owned (receiveAll w is) ∧ (receiveAll w is).heap = w.heap := by
  induction is with
  | nil => intro w h; exact ⟨h, rfl⟩
  | cons i is ih =>
    intro w h
    simp only [receiveAll, List.foldl_cons]
    cases hs : workerReceive w i with
    | none => exact ih w h
    | some w1 =>
      have h1 := workerReceive_owned w w1 i h hs
      have h2 := ih w1 h1.1
      exact ⟨h2.1, by rw [← h1.2.1]; exact h2.2⟩

theorem RestoreTasks_loop_owned (loaded : List (String × DownloadTask)) :
    ∀ (rs : List (List Nat)) (w : World), Owned w →
      Owned (RestoreTasks_loop rs loaded w)
      ∧ w.heap.length ≤ (RestoreTasks_loop rs loaded w).heap.length
      ∧ ∀ p, p < w.heap.length → (RestoreTasks_loop rs loaded w).deref p = w.deref p := by
  induction loaded with
  | nil => intro rs w h; exact ⟨h, le_refl _, fun _ _ => rfl⟩
  | cons e es ih =>
    intro rs w h
    have h1 := receiveAll_owned (rs.headD []) w h
    have h2 := restoreFold_owned [e] (receiveAll w (rs.headD [])) h1.1
    simp only [List.foldl_cons, List.foldl_nil] at h2
    have h3 := ih rs.tail _ h2.1
    have hl : (receiveAll w (rs.headD [])).heap.length = w.heap.length := by rw [h1.2]
    have hd : ∀ p, (receiveAll w (rs.headD [])).deref p = w.deref p := by
      intro p; unfold World.deref; rw [h1.2]
    refine ⟨h3.1, by rw [RestoreTasks_loop]; omega, ?_⟩
    intro p hp
    rw [RestoreTasks_loop, h3.2.2 p (by omega), h2.2.2 p (by omega), hd]

theorem RestoreTasks_owned (E : Env) (rs : List (List Nat)) (w : World) (h : Owned w) :
    Owned (RestoreTasks E rs w).2
    ∧ w.heap.length ≤ (RestoreTasks E rs w).2.heap.length
    ∧ ∀ p, p < w.heap.length → (RestoreTasks E rs w).2.deref p = w.deref p := by
  cases hload : E.storage.GetAllTasks w.saved with
  | error err =>
    have hw : (RestoreTasks E rs w).2 = w := by simp [RestoreTasks, hload]
    rw [hw]; exact ⟨h, le_refl _, fun _ _ => rfl⟩
  | ok loaded =>
    have hw : (RestoreTasks E rs w).2 = RestoreTasks_loop rs loaded w := by
      simp [RestoreTasks, hload]
    rw [hw]
    exact RestoreTasks_loop_owned loaded rs w h

theorem UpdateStatus_deref_ne (w : World) (p q : Nat) (st : TaskStatus) (h : p ≠ q) :
    (w.UpdateStatus p st).deref q = w.deref q := by
  simp [World.UpdateStatus, World.assign, World.deref, List.getD_eq_getElem?_getD,
    List.getElem?_set_ne h]

theorem append_deref_ne (E : Env) (w : World) (p q : Nat) (r : FileResult) (h : p ≠ q) :
    (processTask_append E w p r).deref q = w.deref q := by
  rw [processTask_append, saveTask_deref]
  exact deref_assign_ne w p q _ h

theorem append_deref (E : Env) (w : World) (p : Nat) (r : FileResult) (h : p < w.heap.length) :
    (processTask_append E w p r).deref p = (w.deref p).AddResult r := by
  rw [processTask_append, saveTask_deref]
  exact deref_assign_same w p _ h

theorem append_heap_length (E : Env) (w : World) (p : Nat) (r : FileResult) :
    (processTask_append E w p r).heap.length = w.heap.length := by
  simp [processTask_append, saveTask, World.SaveTask, World.AddResult, World.assign]

theorem finalize_heap_length (E : Env) (w : World) (p : Nat) (a : Bool) :
    (processTask_finalize E w p a).heap.length = w.heap.length := by
  rw [processTask_finalize, saveTask_heap, UpdateStatus_heap_length]

/-- A step of a worker inside `processTask` keeps the invariant and touches only the task
the worker holds. -/
theorem workerStep_owned (E : Env) (w w' : World) (i : Nat) (h : Owned w)
    (hs : workerStep E w i = some w') :
    Owned w' ∧ w'.heap.length = w.heap.length ∧ w'.tm.tasks = w.tm.tasks
    ∧ ∀ q, q < w.heap.length → (w.deref q).IsFinished = true → w'.deref q = w.deref q := by
  have hfin : ∀ (k : Worker) (q : Nat), w.workers[i]? = some k →
      (w.deref q).IsFinished = true → k.task ≠ some q := by
    intro k q hk hq ht
    rw [(h.worker_ok i k q hk ht).2.1] at hq
    exact Bool.noConfusion hq
  unfold workerStep at hs
  split at hs
  · rename_i p hk
    have hw := (Option.some.inj hs).symm
    have hp := h.worker_ok i _ p hk rfl
    have hframe : ∀ q, (Worker.dequeued p).task ≠ some q → w'.deref q = w.deref q := by
      intro q hq
      have hpq : p ≠ q := fun e => hq (by rw [e]; rfl)
      rw [hw]
      exact UpdateStatus_deref_ne w p q _ hpq
    have hlen : w'.heap.length = w.heap.length := by rw [hw]; exact begin_heap_length E w p
    refine ⟨?_, hlen, by rw [hw]; rfl, fun q _ hq => hframe q (hfin _ q hk hq)⟩
    refine h.worker i _ (.ranging p ((processTask_begin E w p).deref p).URLs true) hk
      (by rw [hw]; rfl) (by rw [hw]; rfl) (by rw [hw]; rfl) hlen hframe ?_
    intro r hr
    have hpr : p = r := Option.some.inj hr
    subst hpr
    refine ⟨rfl, ?_⟩
    have hd : w'.deref p = (w.deref p).UpdateStatus StatusProcessing w.clock := by
      rw [hw]; exact begin_deref E w p hp.1
    rw [hd]
    simp only [DownloadTask.IsFinished, DownloadTask.UpdateStatus]
    decide
  · rename_i p allSuccess hk
    have hw := (Option.some.inj hs).symm
    have hframe : ∀ q, (Worker.ranging p [] allSuccess).task ≠ some q →
        w'.deref q = w.deref q := by
      intro q hq
      have hpq : p ≠ q := fun e => hq (by rw [e]; rfl)
      rw [hw]
      exact UpdateStatus_deref_ne w p q _ hpq
    have hlen : w'.heap.length = w.heap.length := by
      rw [hw]; exact finalize_heap_length E w p allSuccess
    refine ⟨?_, hlen, by rw [hw]; rfl, fun q _ hq => hframe q (hfin _ q hk hq)⟩
    exact h.worker i _ .idle hk (by rw [hw]; rfl) (by rw [hw]; rfl) (by rw [hw]; rfl) hlen
      hframe (fun r hr => Option.noConfusion hr)
  · rename_i p url rest allSuccess hk
    have hp := h.worker_ok i _ p hk rfl
    split at hs
    · have hw := (Option.some.inj hs).symm
      refine ⟨?_, by rw [hw]; rfl, by rw [hw]; rfl, fun q _ _ => by rw [hw]; rfl⟩
      exact h.worker i _ .idle hk (by rw [hw]; rfl) (by rw [hw]; rfl) (by rw [hw]; rfl)
        (by rw [hw]; rfl) (fun q _ => by rw [hw]; rfl) (fun r hr => Option.noConfusion hr)
    · have hw := (Option.some.inj hs).symm
      have hd : ∀ q, w'.deref q = w.deref q := by
        intro q; rw [hw, download_snd]; rfl
      have hlen : w'.heap.length = w.heap.length := by rw [hw, download_snd]; rfl
      refine ⟨?_, hlen, by rw [hw, download_snd]; rfl, fun q _ _ => hd q⟩
      refine h.worker i _ (.downloaded p rest
          (allSuccess && (processTask_download E w url).1.2) (processTask_download E w url).1.1)
        hk (by rw [hw, download_snd]; rfl) (by rw [hw, download_snd]; rfl)
        (by rw [hw, download_snd]; rfl) hlen (fun q _ => hd q) ?_
      intro r hr
      have hpr : p = r := Option.some.inj hr
      subst hpr
      exact ⟨rfl, by rw [hd]; exact hp.2.1⟩
  · rename_i p rest allSuccess result hk
    have hw := (Option.some.inj hs).symm
    have hp := h.worker_ok i _ p hk rfl
    have hframe : ∀ q, (Worker.downloaded p rest allSuccess result).task ≠ some q →
        w'.deref q = w.deref q := by
      intro q hq
      have hpq : p ≠ q := fun e => hq (by rw [e]; rfl)
      rw [hw]
      exact append_deref_ne E w p q result hpq
    have hlen : w'.heap.length = w.heap.length := by
      rw [hw]; exact append_heap_length E w p result
    refine ⟨?_, hlen, by rw [hw]; rfl, fun q _ hq => hframe q (hfin _ q hk hq)⟩
    refine h.worker i _ (.ranging p rest allSuccess) hk (by rw [hw]; rfl) (by rw [hw]; rfl)
      (by rw [hw]; rfl) hlen hframe ?_
    intro r hr
    have hpr : p = r := Option.some.inj hr
    subst hpr
    refine ⟨rfl, ?_⟩
    have hd : w'.deref p = (w.deref p).AddResult result := by
      rw [hw]; exact append_deref E w p result hp.1
    rw [hd]
    exact hp.2.1
  · exact Option.noConfusion hs

/-! ## Runs of the manager -/

theorem step_owned (E : Env) (l : Label) (w w' : World) (h : Owned w)
    (hs : step E l w = some w') :
    Owned w' ∧ w.heap.length ≤ w'.heap.length
    ∧ ∀ q, q < w.heap.length → (w.deref q).IsFinished = true → w'.deref q = w.deref q := by
  cases l with
  | createTask urls id =>
    have hw := (Option.some.inj hs).symm
    rw [hw]
    have h1 := CreateTask_owned E w urls id h
    exact ⟨h1.1, h1.2.1, fun q hq _ => h1.2.2 q hq⟩
  | restoreTasks rs =>
    have hw := (Option.some.inj hs).symm
    rw [hw]
    have h1 := RestoreTasks_owned E rs w h
    exact ⟨h1.1, h1.2.1, fun q hq _ => h1.2.2 q hq⟩
  | shutdown =>
    have hw := (Option.some.inj hs).symm
    rw [hw]
    exact ⟨⟨h.queue_nodup, h.queue_ok, h.worker_ok, h.worker_distinct, h.registry_ok⟩,
      le_refl _, fun _ _ _ => rfl⟩
  | receive i =>
    have h1 := workerReceive_owned w w' i h hs
    exact ⟨h1.1, by rw [h1.2.1], fun q _ _ => by simp [World.deref, h1.2.1]⟩
  | stop i =>
    have h1 := workerStop_owned w w' i h hs
    exact ⟨h1.1, by rw [h1.2.1], fun q _ _ => by simp [World.deref, h1.2.1]⟩
  | advance i =>
    have h1 := workerStep_owned E w w' i h hs
    exact ⟨h1.1, by rw [h1.2.1], h1.2.2.2⟩

theorem step_tasks (E : Env) (l : Label) (w w' : World) (h : Owned w)
    (hs : step E l w = some w') (hl : l.isRegistryOp = false) : w'.tm.tasks = w.tm.tasks := by
  cases l with
  | createTask urls id => exact Bool.noConfusion hl
  | restoreTasks rs => exact Bool.noConfusion hl
  | shutdown => rw [← Option.some.inj hs]; rfl
  | receive i => exact (workerReceive_owned w w' i h hs).2.2
  | stop i => exact (workerStop_owned w w' i h hs).2.2
  | advance i => exact (workerStep_owned E w w' i h hs).2.2.1

theorem step_registry (E : Env) (l : Label) (w w' : World) (h : Owned w)
    (hs : step E l w = some w') (hl : l.isRestore = false)
    (hfresh : ∀ urls id, l = .createTask urls id → mapGet w.tm.tasks id = none)
    (k : String) (p : Nat) (hk : mapGet w.tm.tasks k = some p) :
    mapGet w'.tm.tasks k = some p := by
  cases l with
  | createTask urls id =>
    have hw := (Option.some.inj hs).symm
    rcases CreateTask_shape E w urls id with h1 | ⟨_, _, _, ht⟩
    · rw [hw, h1]; exact hk
    · rw [hw, ht, mapGet_mapSet_eq]
      have hne : k ≠ id := by
        intro e
        rw [e, hfresh urls id rfl] at hk
        exact Option.noConfusion hk
      rw [if_neg hne]; exact hk
  | restoreTasks rs => exact Bool.noConfusion hl
  | shutdown => rw [step_tasks E _ w w' h hs rfl]; exact hk
  | receive i => rw [step_tasks E _ w w' h hs rfl]; exact hk
  | stop i => rw [step_tasks E _ w w' h hs rfl]; exact hk
  | advance i => rw [step_tasks E _ w w' h hs rfl]; exact hk

theorem run_cons_some (E : Env) (l : Label) (ls : List Label) (w w' : World)
    (h : run E (l :: ls) w = some w') : ∃ w1, step E l w = some w1 ∧ run E ls w1 = some w' := by
  simp only [run] at h
  cases hs : step E l w with
  | none => rw [hs] at h; exact Option.noConfusion h
  | some w1 => rw [hs] at h; exact ⟨w1, rfl, h⟩

theorem run_append (E : Env) (ls₁ ls₂ : List Label) :
    ∀ w, run E (ls₁ ++ ls₂) w = (run E ls₁ w).bind (run E ls₂) := by
  induction ls₁ with
  | nil => intro w; rfl
  | cons l ls ih =>
    intro w
    simp only [List.cons_append, run]
    cases step E l w with
    | none => rfl
    | some w1 => exact ih w1

theorem run_owned (E : Env) (ls : List Label) :
    ∀ w w', Owned w → run E ls w = some w' → Owned w' := by
  induction ls with
  | nil => intro w w' h hr; rw [← Option.some.inj hr]; exact h
  | cons l ls ih =>
    intro w w' h hr
    obtain ⟨w1, hs, hr1⟩ := run_cons_some E l ls w w' hr
    exact ih w1 w' (step_owned E l w w1 h hs).1 hr1

theorem run_tasks (E : Env) (ls : List Label) :
    ∀ w w', Owned w → run E ls w = some w' → ls.any Label.isRegistryOp = false →
      w'.tm.tasks = w.tm.tasks := by
  induction ls with
  | nil => intro w w' _ hr _; rw [← Option.some.inj hr]
  | cons l ls ih =>
    intro w w' h hr hany
    simp only [List.any_cons, Bool.or_eq_false_iff] at hany
    obtain ⟨w1, hs, hr1⟩ := run_cons_some E l ls w w' hr
    rw [ih w1 w' (step_owned E l w w1 h hs).1 hr1 hany.2, step_tasks E l w w1 h hs hany.1]

theorem freshIDs_append (E : Env) (ls₁ ls₂ : List Label) :
    ∀ w w₁, freshIDs E (ls₁ ++ ls₂) w = true → run E ls₁ w = some w₁ →
      freshIDs E ls₂ w₁ = true := by
  induction ls₁ with
  | nil => intro w w₁ hf hr; rw [← Option.some.inj hr]; exact hf
  | cons l ls ih =>
    intro w w₁ hf hr
    obtain ⟨w1, hs, hr1⟩ := run_cons_some E l ls w w₁ hr
    simp only [List.cons_append, freshIDs, hs, Bool.and_eq_true] at hf
    exact ih w1 w₁ hf.2 hr1

theorem restoreFirst_append (ls₁ ls₂ : List Label) (h : restoreFirst (ls₁ ++ ls₂) = true)
    (hany : ls₁.any Label.isRegistryOp = true) : ls₂.all (fun l => !l.isRestore) = true := by
  induction ls₁ with
  | nil => simp at hany
  | cons l ls ih =>
    simp only [List.cons_append, restoreFirst] at h
    cases hl : l.isRegistryOp with
    | true =>
      simp only [hl, if_true, List.append_eq, List.all_append, Bool.and_eq_true] at h
      exact h.2
    | false =>
      simp only [hl, Bool.false_eq_true, if_false] at h
      simp only [List.any_cons, hl, Bool.false_or] at hany
      exact ih h hany

/-- Along a run, a finished task is not modified. -/
theorem run_frame (E : Env) (p : Nat) (ls : List Label) :
    ∀ w w', Owned w → run E ls w = some w' → p < w.heap.length →
      (w.deref p).IsFinished = true → w'.deref p = w.deref p := by
  induction ls with
  | nil => intro w w' _ hr _ _; rw [← Option.some.inj hr]
  | cons l ls ih =>
    intro w w' h hr hp hfin
    obtain ⟨w1, hs, hr1⟩ := run_cons_some E l ls w w' hr
    have hso := step_owned E l w w1 h hs
    have hd : w1.deref p = w.deref p := hso.2.2 p hp hfin
    rw [ih w1 w' hso.1 hr1 (by omega) (by rw [hd]; exact hfin), hd]

/-- Along a run without `RestoreTasks` and with new identifiers, a registered task stays
registered under its id. -/
theorem run_registry (E : Env) (id : String) (p : Nat) (ls : List Label) :
    ∀ w w', Owned w → run E ls w = some w' → ls.all (fun l => !l.isRestore) = true →
      freshIDs E ls w = true → mapGet w.tm.tasks id = some p →
      mapGet w'.tm.tasks id = some p := by
  induction ls with
  | nil => intro w w' _ hr _ _ hreg; rw [← Option.some.inj hr]; exact hreg
  | cons l ls ih =>
    intro w w' h hr hall hf hreg
    obtain ⟨w1, hs, hr1⟩ := run_cons_some E l ls w w' hr
    simp only [List.all_cons, Bool.and_eq_true, Bool.not_eq_true'] at hall
    simp only [freshIDs, hs, Bool.and_eq_true] at hf
    have hreg1 : mapGet w1.tm.tasks id = some p := by
      refine step_registry E l w w1 h hs hall.1 ?_ id p hreg
      intro urls id' hl
      subst hl
      simpa using hf.1
    exact ih w1 w' (step_owned E l w w1 h hs).1 hr1 (by simpa using hall.2) hf.2 hreg1

/-! ## C7: terminal statuses are absorbing -/

/-- C7. Terminal statuses are absorbing. In every run of the task manager, started from a
new manager, in which `RestoreTasks` is invoked at most once and before any `CreateTask`,
once a registered task is Completed or Failed, no further step (`CreateTask`, workers
receiving and processing tasks, `Shutdown`, `RestoreTasks`) changes the status of that
task. This is because the queue never delivers a task that is terminal or that a worker
holds: the finished task is neither in the queue nor held by a worker, and the tasks in
the queue are unfinished and held by no worker. Moreover, when `uuid.New` never returns an
identifier that is already registered, the task is still the one registered under its
id. -/
theorem terminal_absorbing (E : Env) (n : Nat) (ls₁ ls₂ : List Label) (w₁ w₂ : World)
    (id : String) (p : Nat)
    (hr : restoreFirst (ls₁ ++ ls₂) = true)
    (h₁ : run E ls₁ (NewTaskManager n) = some w₁) (h₂ : run E ls₂ w₁ = some w₂)
    (hreg : mapGet w₁.tm.tasks id = some p) (hfin : (w₁.deref p).IsFinished = true) :
    (w₂.deref p).Status = (w₁.deref p).Status
    ∧ p ∉ w₂.tm.workQueue
    ∧ (∀ (i : Nat) (k : Worker), w₂.workers[i]? = some k → k.task ≠ some p)
    ∧ (∀ q ∈ w₂.tm.workQueue, (w₂.deref q).IsFinished = false
        ∧ ∀ (i : Nat) (k : Worker), w₂.workers[i]? = some k → k.task ≠ some q)
    ∧ (freshIDs E (ls₁ ++ ls₂) (NewTaskManager n) = true →
        mapGet w₂.tm.tasks id = some p) := by
  have ho₁ : Owned w₁ := run_owned E ls₁ _ _ (Owned_init n) h₁
  have ho₂ : Owned w₂ := run_owned E ls₂ _ _ ho₁ h₂
  have hd := run_frame E p ls₂ w₁ w₂ ho₁ h₂ (ho₁.registry_ok id p hreg) hfin
  have hfin₂ : (w₂.deref p).IsFinished = true := by rw [hd]; exact hfin
  refine ⟨by rw [hd], ?_, ?_, ?_, ?_⟩
  · intro hm
    rw [(ho₂.queue_ok p hm).2] at hfin₂
    exact Bool.noConfusion hfin₂
  · intro i k hk ht
    rw [(ho₂.worker_ok i k p hk ht).2.1] at hfin₂
    exact Bool.noConfusion hfin₂
  · intro q hq
    exact ⟨(ho₂.queue_ok q hq).2, fun i k hk ht => (ho₂.worker_ok i k q hk ht).2.2 hq⟩
  · intro hf
    have hany : ls₁.any Label.isRegistryOp = true := by
      cases hb : ls₁.any Label.isRegistryOp with
      | true => rfl
      | false =>
        have ht := run_tasks E ls₁ _ _ (Owned_init n) h₁ hb
        rw [ht] at hreg
        exact Option.noConfusion hreg
    exact run_registry E id p ls₂ w₁ w₂ ho₁ h₂ (restoreFirst_append ls₁ ls₂ hr hany)
      (freshIDs_append E ls₁ ls₂ _ _ hf h₁) hreg

/-- C7 on the example: the first task ends Failed, and stays so while a second task is
created, started and interrupted. -/
theorem terminal_absorbing_witness :
    (restoreFirst (firstRun ++ secondRun) = true
      ∧ freshIDs exampleEnv (firstRun ++ secondRun) (NewTaskManager 1) = true
      ∧ run exampleEnv firstRun (NewTaskManager 1) = some afterFirstRun
      ∧ run exampleEnv secondRun afterFirstRun = some afterSecondRun
      ∧ mapGet afterFirstRun.tm.tasks "t1" = some 0
      ∧ (afterFirstRun.deref 0).IsFinished = true)
    ∧ (afterFirstRun.deref 0).Status = StatusFailed
    ∧ mapGet afterSecondRun.tm.tasks "t1" = some 0
    ∧ (afterSecondRun.deref 0).Status = (afterFirstRun.deref 0).Status
    ∧ 0 ∉ afterSecondRun.tm.workQueue := by
  have h := terminal_absorbing exampleEnv 1 firstRun secondRun afterFirstRun afterSecondRun
    "t1" 0 (by decide) (by decide) (by decide) (by decide) (by decide)
  exact ⟨⟨by decide, by decide, by decide, by decide, by decide, by decide⟩, by decide,
    h.2.2.2.2 (by decide), h.1, h.2.1⟩

/-! ## C11: sanitizeFileName -/

theorem ReplaceAll_scan_single (c d : Char) (s : List Char) :
    ReplaceAll_scan [c] [d] 0 s = s.map (replaceChar c d) := by
  induction s with
  | nil => rfl
  | cons x xs ih =>
    by_cases h : x = c
    · subst h
      simp [ReplaceAll_scan, List.isPrefixOf, ih, replaceChar]
    · have h' : (c == x) = false := by simpa using Ne.symm h
      simp [ReplaceAll_scan, List.isPrefixOf, ih, h, h', replaceChar]

/-- `strings.ReplaceAll` with two different one-character strings replaces the character
wherever it stands. -/
theorem ReplaceAll_char (s : String) (c d : Char) (h : c ≠ d) :
    ReplaceAll s ⟨[c]⟩ ⟨[d]⟩ = ⟨s.data.map (replaceChar c d)⟩ := by
  have h1 : (⟨[c]⟩ : String) ≠ ⟨[d]⟩ := by
    intro e
    apply h
    simpa using congrArg String.data e
  simp only [ReplaceAll, h1, if_false]
  simp [ReplaceAll_scan_single]

theorem replaceChar_chain (x : Char) :
    replaceChar '|' '_' (replaceChar '>' '_' (replaceChar '<' '_' (replaceChar '"' '_'
      (replaceChar '?' '_' (replaceChar '*' '_' (replaceChar ':' '_' (replaceChar '\\' '_'
        (replaceChar '/' '_' x)))))))) = sanitizeChar x := by
  unfold sanitizeChar forbiddenChars
  by_cases h1 : x = '/'
  · subst h1; decide
  by_cases h2 : x = '\\'
  · subst h2; decide
  by_cases h3 : x = ':'
  · subst h3; decide
  by_cases h4 : x = '*'
  · subst h4; decide
  by_cases h5 : x = '?'
  · subst h5; decide
  by_cases h6 : x = '"'
  · subst h6; decide
  by_cases h7 : x = '<'
  · subst h7; decide
  by_cases h8 : x = '>'
  · subst h8; decide
  by_cases h9 : x = '|'
  · subst h9; decide
  simp [replaceChar, h1, h2, h3, h4, h5, h6, h7, h8, h9]

/-- The nine replacements together act character by character. -/
theorem sanitizeFileName_eq_map (name : String) :
    sanitizeFileName name = ⟨name.data.map sanitizeChar⟩ := by
  have e1 : ∀ s, ReplaceAll s "/" "_" = ⟨s.data.map (replaceChar '/' '_')⟩ :=
    fun s => ReplaceAll_char s '/' '_' (by decide)
  have e2 : ∀ s, ReplaceAll s "\\" "_" = ⟨s.data.map (replaceChar '\\' '_')⟩ :=
    fun s => ReplaceAll_char s '\\' '_' (by decide)
  have e3 : ∀ s, ReplaceAll s ":" "_" = ⟨s.data.map (replaceChar ':' '_')⟩ :=
    fun s => ReplaceAll_char s ':' '_' (by decide)
  have e4 : ∀ s, ReplaceAll s "*" "_" = ⟨s.data.map (replaceChar '*' '_')⟩ :=
    fun s => ReplaceAll_char s '*' '_' (by decide)
  have e5 : ∀ s, ReplaceAll s "?" "_" = ⟨s.data.map (replaceChar '?' '_')⟩ :=
    fun s => ReplaceAll_char s '?' '_' (by decide)
  have e6 : ∀ s, ReplaceAll s "\"" "_" = ⟨s.data.map (replaceChar '"' '_')⟩ :=
    fun s => ReplaceAll_char s '"' '_' (by decide)
  have e7 : ∀ s, ReplaceAll s "<" "_" = ⟨s.data.map (replaceChar '<' '_')⟩ :=
    fun s => ReplaceAll_char s '<' '_' (by decide)
  have e8 : ∀ s, ReplaceAll s ">" "_" = ⟨s.data.map (replaceChar '>' '_')⟩ :=
    fun s => ReplaceAll_char s '>' '_' (by decide)
  have e9 : ∀ s, ReplaceAll s "|" "_" = ⟨s.data.map (replaceChar '|' '_')⟩ :=
    fun s => ReplaceAll_char s '|' '_' (by decide)
  show ReplaceAll (ReplaceAll (ReplaceAll (ReplaceAll (ReplaceAll (ReplaceAll (ReplaceAll
    (ReplaceAll (ReplaceAll name "/" "_") "\\" "_") ":" "_") "*" "_") "?" "_") "\"" "_")
    "<" "_") ">" "_") "|" "_" = _
  rw [e9, e8, e7, e6, e5, e4, e3, e2, e1]
  simp only [List.map_map]
  refine congrArg String.mk (List.map_congr_left ?_)
  intro x _
  simp only [Function.comp_apply]
  exact replaceChar_chain x

theorem sanitizeChar_not_forbidden (c : Char) : sanitizeChar c ∉ forbiddenChars := by
  unfold sanitizeChar
  split
  · decide
  · assumption

theorem sanitizeChar_idem (c : Char) : sanitizeChar (sanitizeChar c) = sanitizeChar c := by
  have h := sanitizeChar_not_forbidden c
  generalize sanitizeChar c = d at h
  unfold sanitizeChar
  rw [if_neg h]

theorem sanitizeChar_eq_underscore (c : Char) :
    sanitizeChar c = '_' ↔ (c ∈ forbiddenChars ∨ c = '_') := by
  unfold sanitizeChar
  split
  · rename_i h; simp [h]
  · rename_i h; simp [h]

theorem sanitizeChar_utf8Size (c : Char) : (sanitizeChar c).utf8Size = c.utf8Size := by
  unfold sanitizeChar
  split
  · rename_i h
    simp only [forbiddenChars, List.mem_cons, List.mem_singleton, List.not_mem_nil,
      or_false] at h
    rcases h with h | h | h | h | h | h | h | h | h <;> subst h <;> decide
  · rfl

theorem utf8ByteSize_map (f : Char → Char) (hf : ∀ c, (f c).utf8Size = c.utf8Size)
    (l : List Char) : String.utf8ByteSize ⟨l.map f⟩ = String.utf8ByteSize ⟨l⟩ := by
  simp only [String.utf8ByteSize]
  induction l with
  | nil => rfl
  | cons c cs ih => simp only [List.map_cons, String.utf8ByteSize.go, ih, hf]

/-- C11. For every name, `sanitizeFileName(name)` has the length of `name`, in characters
and in bytes; it holds none of the nine characters / \ : * ? " < > |; at every position it
has '_' exactly when `name` has there one of those characters or '_', and the character of
`name` otherwise; `sanitizeFileName` is idempotent, and a sanitised name holds no path
separator, neither '/' nor '\'. -/
theorem sanitizeFileName_spec (name : String) :
    (sanitizeFileName name).length = name.length
    ∧ (sanitizeFileName name).utf8ByteSize = name.utf8ByteSize
    ∧ (∀ c ∈ forbiddenChars, c ∉ (sanitizeFileName name).data)
    ∧ (∀ (i : Nat) (c : Char), name.data[i]? = some c →
        ((sanitizeFileName name).data[i]? = some '_' ↔ (c ∈ forbiddenChars ∨ c = '_'))
        ∧ (¬ (c ∈ forbiddenChars ∨ c = '_') → (sanitizeFileName name).data[i]? = some c))
    ∧ (∀ i : Nat, (sanitizeFileName name).data[i]? = none ↔ name.data[i]? = none)
    ∧ sanitizeFileName (sanitizeFileName name) = sanitizeFileName name
    ∧ '/' ∉ (sanitizeFileName name).data
    ∧ '\\' ∉ (sanitizeFileName name).data := by
  have hmem : ∀ c ∈ forbiddenChars, c ∉ (sanitizeFileName name).data := by
    intro c hc hin
    rw [sanitizeFileName_eq_map] at hin
    obtain ⟨y, _, hy⟩ := List.mem_map.1 hin
    rw [← hy] at hc
    exact sanitizeChar_not_forbidden y hc
  have hget : ∀ i : Nat, (sanitizeFileName name).data[i]?
      = (name.data[i]?).map sanitizeChar := by
    intro i
    rw [sanitizeFileName_eq_map]
    exact List.getElem?_map sanitizeChar name.data i
  refine ⟨?_, ?_, hmem, ?_, ?_, ?_, hmem '/' (by decide), hmem '\\' (by decide)⟩
  · rw [sanitizeFileName_eq_map]
    show (name.data.map sanitizeChar).length = name.data.length
    exact List.length_map name.data sanitizeChar
  · rw [sanitizeFileName_eq_map]
    exact utf8ByteSize_map sanitizeChar sanitizeChar_utf8Size name.data
  · intro i c hc
    rw [hget, hc]
    simp only [Option.map_some', Option.some.injEq]
    refine ⟨sanitizeChar_eq_underscore c, ?_⟩
    intro hn
    unfold sanitizeChar
    rw [if_neg (fun h => hn (Or.inl h))]
  · intro i
    rw [hget]
    cases name.data[i]? <;> simp
  · rw [sanitizeFileName_eq_map name, sanitizeFileName_eq_map]
    simp only [List.map_map]
    refine congrArg String.mk (List.map_congr_left ?_)
    intro x _
    exact sanitizeChar_idem x

/-- C11 on a name that holds each of the nine characters and '_'. -/
theorem sanitizeFileName_spec_witness :
    sanitizeFileName "a/b\\c:d*e?f\"g<h>i|j_k.txt" = "a_b_c_d_e_f_g_h_i_j_k.txt"
    ∧ (sanitizeFileName "a/b\\c:d*e?f\"g<h>i|j_k.txt").length
        = "a/b\\c:d*e?f\"g<h>i|j_k.txt".length
    ∧ ("a/b\\c:d*e?f\"g<h>i|j_k.txt".data[1]? = some '/' ∧ '/' ∈ forbiddenChars)
    ∧ (sanitizeFileName "a/b\\c:d*e?f\"g<h>i|j_k.txt").data[1]? = some '_'
    ∧ sanitizeFileName (sanitizeFileName "a/b\\c:d*e?f\"g<h>i|j_k.txt")
        = sanitizeFileName "a/b\\c:d*e?f\"g<h>i|j_k.txt" :=
  have h := sanitizeFileName_spec "a/b\\c:d*e?f\"g<h>i|j_k.txt"
  ⟨by decide, h.1, ⟨by decide, by decide⟩,
    ((h.2.2.2.1 1 '/' (by decide)).1).2 (Or.inl (by decide)), h.2.2.2.2.2.1⟩

end FileDl
